import Mathlib

/-!
# Verification of the violetear CSS-generation engine

Shallow embedding, in Lean 4, of the core of the `violetear` library
(`violetear/units.py`, `violetear/selector.py`, `violetear/style.py`,
`violetear/animation.py`, `violetear/color.py`, `violetear/presets.py`),
together with theorems settling the specification claims about it.

Modelling conventions:

* Python strings are modelled as `List Char` (`Str`).
* Python numbers are modelled exactly: `int` as `ℤ`, `float` as `ℚ`
  (exact arithmetic; the reference semantics idealises IEEE floats).
  Where a Python value can be either an `int` or a `float` and the
  distinction is observable (`isinstance` dispatch, `str()` rendering),
  we use the tagged type `PyNum`.
* Python `dict` is modelled as an association list in insertion order;
  insertion of an existing key overwrites the value in place
  (`dictInsert`), exactly like CPython dicts.
* Fallible operations (Python exceptions) return `Option`/`Except`.
-/

namespace Violetear

/-- Python strings as lists of characters. -/
abbrev Str := List Char

/-! ## Python dictionaries (insertion-ordered, overwrite-in-place) -/

/-- `d[k] = v` on a CPython dict: if `k` is present, the value is replaced
in place (the key keeps its position); otherwise `(k, v)` is appended. -/
def dictInsert (m : List (Str × α)) (k : Str) (v : α) : List (Str × α) :=
  match m with
  | [] => [(k, v)]
  | p :: rest => if p.1 = k then (k, v) :: rest else p :: dictInsert rest k v

/-- `d.get(k)` / `d[k]` lookup on a CPython dict: the value stored at the
key, if present. -/
def dictGet (m : List (Str × α)) (k : Str) : Option α :=
  match m with
  | [] => none
  | p :: rest => if p.1 = k then some p.2 else dictGet rest k

theorem dictGet_dictInsert (m : List (Str × α)) (k : Str) (v : α) :
    dictGet (dictInsert m k v) k = some v := by
  induction m with
  | nil => simp [dictInsert, dictGet]
  | cons hd tl ih =>
    by_cases hk : hd.1 = k
    · simp [dictInsert, dictGet, hk]
    · simp [dictInsert, dictGet, hk, ih]

theorem dictGet_dictInsert_ne (m : List (Str × α)) (k k' : Str) (v : α)
    (h : k ≠ k') :
    dictGet (dictInsert m k v) k' = dictGet m k' := by
  induction m with
  | nil => simp [dictInsert, dictGet, h]
  | cons hd tl ih =>
    by_cases hk : hd.1 = k
    · simp [dictInsert, dictGet, hk, h, Ne.symm h]
    · by_cases hk' : hd.1 = k'
      · simp [dictInsert, dictGet, hk, hk', Ne.symm h]
      · simp [dictInsert, dictGet, hk, hk', ih]

theorem dictInsert_dictInsert (m : List (Str × α)) (k : Str) (v : α) :
    dictInsert (dictInsert m k v) k v = dictInsert m k v := by
  induction m with
  | nil => simp [dictInsert]
  | cons hd tl ih =>
    by_cases hk : hd.1 = k
    · simp [dictInsert, hk]
    · simp [dictInsert, hk, ih]

/-! ## Python numbers

`PyNum` distinguishes `int` from `float` because violetear's code dispatches
on `isinstance(x, int)` / `isinstance(x, float)`.  Floats are idealised as
exact rationals. -/

inductive PyNum where
  | i (n : ℤ)
  | f (q : ℚ)
deriving DecidableEq

/-- The numeric value carried by a `PyNum`. -/
def PyNum.toQ : PyNum → ℚ
  | .i n => n
  | .f q => q

/-- Python `int(q)`: truncation toward zero. -/
def pyTrunc (q : ℚ) : ℤ := if 0 ≤ q then ⌊q⌋ else ⌈q⌉

/-- Truncation of a `PyNum` (`int(x)`): an `int` is unchanged, a `float`
is truncated toward zero. -/
def PyNum.trunc : PyNum → ℤ
  | .i n => n
  | .f q => pyTrunc q

/-- Round-half-to-even to the nearest integer, as CPython's `round`. -/
def roundHalfEven (q : ℚ) : ℤ :=
  let fl := ⌊q⌋
  if q - fl < 1/2 then fl
  else if 1/2 < q - fl then fl + 1
  else if fl % 2 = 0 then fl else fl + 1

/-- CPython `round(q, ndigits)` on a float (idealised to exact rationals). -/
def pyRound (q : ℚ) (ndigits : ℕ) : ℚ :=
  (roundHalfEven (q * 10 ^ ndigits) : ℚ) / 10 ^ ndigits

/-- CPython `round(x, ndigits)`: an `int` is returned unchanged, a `float`
is rounded half-to-even at `ndigits` decimal digits. -/
def PyNum.round (x : PyNum) (ndigits : ℕ) : PyNum :=
  match x with
  | .i n => .i n
  | .f q => .f (pyRound q ndigits)

/-! ## `violetear/units.py` -/

/-- `Unit`: a tagged numeric value `{value, unit}`. -/
structure Unit where
  value : PyNum
  unit : Str
deriving DecidableEq

/-- `px(x) = Unit(int(x), "px")`. -/
def px (x : PyNum) : Unit := ⟨.i x.trunc, "px".toList⟩

/-- `pt(x) = Unit(round(x, 3), "pt")`. -/
def pt (x : PyNum) : Unit := ⟨x.round 3, "pt".toList⟩

/-- `em(x) = Unit(round(x, 3), "em")`. -/
def em (x : PyNum) : Unit := ⟨x.round 3, "em".toList⟩

/-- `rem(x) = Unit(round(x, 3), "rem")`. -/
def rem (x : PyNum) : Unit := ⟨x.round 3, "rem".toList⟩

/-- `fr(x) = Unit(round(x, 2), "fr")`. -/
def fr (x : PyNum) : Unit := ⟨x.round 2, "fr".toList⟩

/-- `pc(x) = Unit(math.trunc(x * 10000) / 100, "%")`; the division is
Python float division, so the value is always a float. -/
def pc (x : PyNum) : Unit := ⟨.f ((pyTrunc (x.toQ * 10000) : ℚ) / 100), "%".toList⟩

/-- `sec(x) = Unit(round(x, 2), "s")`. -/
def sec (x : PyNum) : Unit := ⟨x.round 2, "s".toList⟩

/-- `ms(x) = Unit(int(x), "ms")`. -/
def ms (x : PyNum) : Unit := ⟨.i x.trunc, "ms".toList⟩

/-- Argument to `Unit.infer`: either a raw number or any other value
(in practice an already-built `Unit`), which passes through unchanged. -/
inductive InferArg where
  | num (x : PyNum)
  | unit (u : Unit)
deriving DecidableEq

/-- `Unit.infer(x, on_float, on_int)`: `isinstance`-dispatch of a raw
number to a unit constructor; non-numbers pass through. -/
def Unit.infer (x : InferArg) (onFloat onInt : PyNum → Unit) : Unit :=
  match x with
  | .num (.i n) => onInt (.i n)
  | .num (.f q) => onFloat (.f q)
  | .unit u => u

/-- The loop of `Unit.scale`: `steps` iterations of
`yield unit(current); current += delta`. -/
def scaleGo {α : Type} (unit : ℚ → α) (delta : ℚ) : ℚ → ℕ → List α
  | _, 0 => []
  | current, n + 1 => unit current :: scaleGo unit delta (current + delta) n

/-- `Unit.scale(unit, min_value, max_value, steps)` from `units.py`:
`delta = (max_value - min_value) / (steps - 1)`, then `steps` yields. -/
def Unit.scale {α : Type} (unit : ℚ → α) (minValue maxValue : ℚ)
    (steps : ℕ) : List α :=
  scaleGo unit ((maxValue - minValue) / ((steps : ℚ) - 1)) minValue steps

theorem scaleGo_eq_map {α : Type} (unit : ℚ → α) (delta : ℚ) (c : ℚ) (n : ℕ) :
    scaleGo unit delta c n
      = (List.range n).map (fun i : ℕ => unit (c + (i : ℚ) * delta)) := by
  induction n generalizing c with
  | zero => rfl
  | succ m ih =>
    show unit c :: scaleGo unit delta (c + delta) m = _
    rw [ih (c + delta), List.range_succ_eq_map, List.map_cons, List.map_map]
    simp only [Nat.cast_zero, zero_mul, add_zero]
    congr 1
    apply List.map_congr_left
    intro i _
    simp only [Function.comp]
    congr 1
    push_cast
    ring


/-- C3: for every `steps ≥ 2`, `Unit.scale(unitCtor, min, max, steps)` yields
exactly `steps` values, the first `unitCtor(min)`, the last `unitCtor(max)`,
and in general the `i`-th value is `unitCtor(min + i * (max - min)/(steps - 1))`,
i.e. the values are evenly spaced from `min` to `max` inclusive.
Instantiating `min := 0`, `max := 1` gives the claim's special case. -/
theorem scale_boundary {α : Type} (unit : ℚ → α) (minV maxV : ℚ) (steps : ℕ)
    (h2 : 2 ≤ steps) :
    (Unit.scale unit minV maxV steps).length = steps ∧
    (Unit.scale unit minV maxV steps).head? = some (unit minV) ∧
    (Unit.scale unit minV maxV steps).getLast? = some (unit maxV) ∧
    ∀ i : ℕ, i < steps →
      (Unit.scale unit minV maxV steps)[i]?
        = some (unit (minV + (i : ℚ) * ((maxV - minV) / ((steps : ℚ) - 1)))) := by
  have hlen : (Unit.scale unit minV maxV steps).length = steps := by
    rw [Unit.scale, scaleGo_eq_map, List.length_map, List.length_range]
  have hsne : ((steps : ℚ) - 1) ≠ 0 := by
    have : (2 : ℚ) ≤ (steps : ℚ) := by exact_mod_cast h2
    intro hc
    nlinarith
  have hidx : ∀ i : ℕ, i < steps →
      (Unit.scale unit minV maxV steps)[i]?
        = some (unit (minV + (i : ℚ) * ((maxV - minV) / ((steps : ℚ) - 1)))) := by
    intro i hi
    rw [Unit.scale, scaleGo_eq_map, List.getElem?_map, List.getElem?_range hi]
    rfl
  refine ⟨hlen, ?_, ?_, hidx⟩
  · rw [List.head?_eq_getElem?, hidx 0 (by omega)]
    norm_num
  · rw [List.getLast?_eq_getElem?, hlen, hidx (steps - 1) (by omega)]
    congr 2
    have hc : ((steps - 1 : ℕ) : ℚ) = (steps : ℚ) - 1 := by
      push_cast [Nat.cast_sub (by omega : 1 ≤ steps)]
      ring
    rw [hc]
    field_simp

/-- Witness for `scale_boundary` at `unit := id`, `min := 0`, `max := 1`,
`steps := 3`. -/
theorem scale_boundary_witness :
    2 ≤ 3 ∧
    ((Unit.scale (id : ℚ → ℚ) 0 1 3).length = 3 ∧
     (Unit.scale (id : ℚ → ℚ) 0 1 3).head? = some (id (0 : ℚ)) ∧
     (Unit.scale (id : ℚ → ℚ) 0 1 3).getLast? = some (id (1 : ℚ)) ∧
     ∀ i : ℕ, i < 3 →
       (Unit.scale (id : ℚ → ℚ) 0 1 3)[i]?
         = some (id ((0 : ℚ) + (i : ℚ) * ((1 - 0) / (((3 : ℕ) : ℚ) - 1))))) :=
  ⟨by decide, scale_boundary (id : ℚ → ℚ) 0 1 3 (by decide)⟩


/-! ## `violetear/selector.py`

The selector grammar is the regular expression

    SELECTOR = tag? (#TOKEN)? (.TOKEN)* (:TOKEN)* ([TOKEN=TOKEN])*
    TOKEN    = ([a-zA-Z0-9]+-)*[a-zA-Z0-9]+

matched with `re.fullmatch`.  This language is unambiguous: a `TOKEN` never
contains any of the sigils `#`, `.`, `:`, `[`, `=`, `]`, `>`, and each
component after the tag starts with a distinct sigil that is not a token
character.  Consequently every group of a successful full match must extend
exactly to the next character outside `[a-zA-Z0-9-]` (the backtracking
engine can never place a group boundary inside a run of token characters,
because no later group can consume a token character), and `re.fullmatch`
succeeds if and only if the deterministic maximal-munch parser below
succeeds, with the same groups. -/

/-- A character matched by `[a-zA-Z0-9]` (ASCII alphanumeric). -/
def isTokenChar (c : Char) : Bool := c.isAlphanum

/-- A character that can occur inside a `TOKEN` run: alphanumeric or `-`. -/
def isSelChar (c : Char) : Bool := isTokenChar c || c == '-'

/-- Automaton for the language `([a-zA-Z0-9]+-)*[a-zA-Z0-9]+`; the flag
records whether at least one alphanumeric has been read since the last
dash (or the start). -/
def tokenFrom : Bool → Str → Bool
  | b, [] => b
  | b, c :: rest =>
    if c == '-' then b && tokenFrom false rest
    else isTokenChar c && tokenFrom true rest

/-- Membership in the `TOKEN` language. -/
def isToken (s : Str) : Bool := tokenFrom false s

/-- `Selector`: tag, id, classes, states, attributes (a dict) and an
optional parent (for the `>` combinator). -/
inductive Selector where
  | mk (tag id : Option Str) (classes states : List Str)
      (attrs : List (Str × Str)) (parent : Option Selector)

def Selector.tag : Selector → Option Str
  | .mk t _ _ _ _ _ => t

def Selector.id : Selector → Option Str
  | .mk _ i _ _ _ _ => i

def Selector.classes : Selector → List Str
  | .mk _ _ c _ _ _ => c

def Selector.states : Selector → List Str
  | .mk _ _ _ s _ _ => s

def Selector.attrs : Selector → List (Str × Str)
  | .mk _ _ _ _ a _ => a

def Selector.parent : Selector → Option Selector
  | .mk _ _ _ _ _ p => p

/-- The tag part of a serialized selector: `if self._tag:` is a Python
truthiness test, so `None` and the empty string are both skipped. -/
def optTagStr (tag : Option Str) : Str :=
  match tag with
  | some t => if t.isEmpty then [] else t
  | none => []

/-- The id part of a serialized selector (`#` followed by the id), with
the same truthiness skip as the tag. -/
def optIdStr (id : Option Str) : Str :=
  match id with
  | some i => if i.isEmpty then [] else '#' :: i
  | none => []

/-- `Selector.css`: parent (followed by `>`), tag, `#id`, `.class`es,
`:state`s, `[attr=value]`s, in this order. -/
def Selector.css : Selector → Str
  | .mk tag id classes states attrs parent =>
    (match parent with
     | some p => p.css ++ ['>']
     | none => [])
    ++ optTagStr tag
    ++ optIdStr id
    ++ classes.flatMap (fun c => '.' :: c)
    ++ states.flatMap (fun st => ':' :: st)
    ++ attrs.flatMap (fun p => '[' :: (p.1 ++ '=' :: p.2 ++ [']']))

/-- The optional `tag` group: the maximal run of token characters, which
must be empty (no tag) or a valid `TOKEN`. -/
def parseTag (s : Str) : Option (Option Str × Str) :=
  let tok := s.takeWhile isSelChar
  if tok.isEmpty then some (none, s)
  else if isToken tok then some (some tok, s.dropWhile isSelChar)
  else none

/-- The optional `#TOKEN` id group. -/
def parseId : Str → Option (Option Str × Str)
  | c :: rest =>
    if c = '#' then
      let tok := rest.takeWhile isSelChar
      if isToken tok then some (some tok, rest.dropWhile isSelChar) else none
    else some (none, c :: rest)
  | [] => some (none, [])

theorem length_dropWhile_le {α : Type} (p : α → Bool) (l : List α) :
    (l.dropWhile p).length ≤ l.length := by
  induction l with
  | nil => simp [List.dropWhile]
  | cons c rest ih =>
    rw [List.dropWhile]
    by_cases h : p c
    · simp only [h, if_true]
      simp only [List.length_cons]
      omega
    · simp [h]

/-- A `(<sig>TOKEN)*` group (classes with `sig = '.'`, states with
`sig = ':'`). -/
def parseReps (sig : Char) : Str → Option (List Str × Str)
  | c :: rest =>
    if c = sig then
      let tok := rest.takeWhile isSelChar
      if isToken tok then
        match parseReps sig (rest.dropWhile isSelChar) with
        | some (toks, r) => some (tok :: toks, r)
        | none => none
      else none
    else some ([], c :: rest)
  | [] => some ([], [])
termination_by s => s.length
decreasing_by
  simp only [List.length_cons]
  have := length_dropWhile_le isSelChar rest
  omega

/-- The `([TOKEN=TOKEN])*` attributes group, as a list of key/value pairs
in match order. -/
def parseAttrs : Str → Option (List (Str × Str) × Str)
  | c :: rest =>
    if c = '[' then
      let key := rest.takeWhile isSelChar
      if isToken key then
        match hr1 : rest.dropWhile isSelChar with
        | '=' :: r2 =>
          let val := r2.takeWhile isSelChar
          if isToken val then
            match hr3 : r2.dropWhile isSelChar with
            | ']' :: r4 =>
              match parseAttrs r4 with
              | some (ps, r) => some ((key, val) :: ps, r)
              | none => none
            | _ => none
          else none
        | _ => none
      else some ([], c :: rest)
    else some ([], c :: rest)
  | [] => some ([], [])
termination_by s => s.length
decreasing_by
  simp only [List.length_cons]
  have h1 := length_dropWhile_le isSelChar rest
  rw [hr1] at h1
  have h2 := length_dropWhile_le isSelChar r2
  rw [hr3] at h2
  simp only [List.length_cons] at h1 h2
  omega

/-- `Selector.parse(selector, parent)`: full match of the `SELECTOR`
regex (see the header of this section), then assembly of the groups into
a `Selector`; the attribute pairs populate a dict in match order
(`attrs[key] = value`).  A failed match is Python's `ValueError`. -/
def Selector.parse (selector : Str) (parent : Option Selector) :
    Option Selector := do
  let (tag, r1) ← parseTag selector
  let (id, r2) ← parseId r1
  let (classes, r3) ← parseReps '.' r2
  let (states, r4) ← parseReps ':' r3
  let (attrPairs, r5) ← parseAttrs r4
  if r5.isEmpty then
    some (Selector.mk tag id classes states
      (attrPairs.foldl (fun m p => dictInsert m p.1 p.2) []) parent)
  else none

/-- `Selector.on(*states, **attrs)`: a new selector with the extra states
appended and the attribute dict updated (`dict(self._attrs, **attrs)`). -/
def Selector.on (s : Selector) (states : List Str)
    (attrs : List (Str × Str)) : Selector :=
  .mk s.tag s.id s.classes (s.states ++ states)
    (attrs.foldl (fun m p => dictInsert m p.1 p.2) s.attrs) s.parent

/-- Python `str(n)` for an integer. -/
def intStr (n : ℤ) : Str := (toString n).toList

/-- `Selector.children(selector, nth)`: parse the child selector with
`self` as parent, then optionally add an `nth-child(i)` state. -/
def Selector.children (s : Selector) (selector : Str) (nth : Option ℤ) :
    Option Selector :=
  (Selector.parse selector (some s)).map fun c =>
    match nth with
    | some n => c.on ["nth-child(".toList ++ intStr n ++ [')']] []
    | none => c


/-! ### Round-trip of `Selector.parse` and `Selector.css` (claim C1) -/

theorem all_selChar_of_tokenFrom (s : Str) :
    ∀ b : Bool, tokenFrom b s = true → s.all isSelChar = true := by
  induction s with
  | nil => intro b _; rfl
  | cons c rest ih =>
    intro b h
    rw [tokenFrom] at h
    by_cases hc : c = '-'
    · subst hc
      simp only [Char.isValue, beq_self_eq_true, if_true, Bool.and_eq_true] at h
      simp only [List.all_cons, Bool.and_eq_true]
      exact ⟨by decide, ih false h.2⟩
    · rw [if_neg (by simpa using hc), Bool.and_eq_true] at h
      simp only [List.all_cons, Bool.and_eq_true]
      refine ⟨?_, ih true h.2⟩
      simp [isSelChar, h.1]

theorem all_selChar_of_isToken (s : Str) (h : isToken s = true) :
    s.all isSelChar = true :=
  all_selChar_of_tokenFrom s false h

theorem isToken_ne_nil (s : Str) (h : isToken s = true) : s ≠ [] := by
  intro hc
  subst hc
  simp [isToken, tokenFrom] at h

/-- `r` is empty or starts with a character from `cs`. -/
def startsIn (cs : List Char) (r : Str) : Prop :=
  ∀ c, r.head? = some c → c ∈ cs

theorem startsIn_nil (cs : List Char) : startsIn cs [] := by
  intro c hc
  simp at hc

theorem startsIn_cons (cs : List Char) (c : Char) (r : Str) (h : c ∈ cs) :
    startsIn cs (c :: r) := by
  intro d hd
  simp only [List.head?] at hd
  obtain rfl : c = d := by injection hd
  exact h

theorem startsIn_append (cs : List Char) (a b : Str)
    (ha : startsIn cs a) (hb : startsIn cs b) : startsIn cs (a ++ b) := by
  cases a with
  | nil => simpa using hb
  | cons c r =>
    intro d hd
    simp only [List.cons_append, List.head?] at hd
    exact ha d (by simpa using hd)

theorem startsIn_mono (cs cs' : List Char) (r : Str)
    (hsub : ∀ c ∈ cs, c ∈ cs') (h : startsIn cs r) : startsIn cs' r :=
  fun c hc => hsub c (h c hc)

/-- No run of token characters can begin at the head of `r`. -/
def headNotSel (r : Str) : Prop :=
  ∀ c, r.head? = some c → isSelChar c = false

theorem headNotSel_of_startsIn (cs : List Char) (r : Str)
    (hcs : ∀ c ∈ cs, isSelChar c = false) (h : startsIn cs r) : headNotSel r :=
  fun c hc => hcs c (h c hc)

theorem takeWhile_token_append (tok rest : Str)
    (ht : tok.all isSelChar = true) (hr : headNotSel rest) :
    (tok ++ rest).takeWhile isSelChar = tok
      ∧ (tok ++ rest).dropWhile isSelChar = rest := by
  induction tok with
  | nil =>
    simp only [List.nil_append]
    cases rest with
    | nil => exact ⟨rfl, rfl⟩
    | cons c r =>
      have hc : isSelChar c = false := hr c rfl
      rw [List.takeWhile, List.dropWhile, hc]
      exact ⟨rfl, rfl⟩
  | cons c tl ih =>
    simp only [List.all_cons, Bool.and_eq_true] at ht
    have h := ih ht.2
    simp only [List.cons_append, List.takeWhile, List.dropWhile, ht.1]
    simp only [List.append_eq]
    exact ⟨by rw [h.1], by rw [h.2]⟩

theorem parseTag_token (tok rest : Str) (ht : isToken tok = true)
    (hr : headNotSel rest) :
    parseTag (tok ++ rest) = some (some tok, rest) := by
  obtain ⟨h1, h2⟩ := takeWhile_token_append tok rest (all_selChar_of_isToken tok ht) hr
  rw [parseTag]
  simp only [h1, h2]
  rw [if_neg (by simpa [List.isEmpty_iff] using isToken_ne_nil tok ht), if_pos ht]

theorem parseTag_notag (rest : Str) (hr : headNotSel rest) :
    parseTag rest = some (none, rest) := by
  have h : rest.takeWhile isSelChar = [] := by
    cases rest with
    | nil => rfl
    | cons c r =>
      have hc : isSelChar c = false := hr c rfl
      rw [List.takeWhile, hc]
  rw [parseTag]
  simp [h]

theorem parseId_some (tok rest : Str) (ht : isToken tok = true)
    (hr : headNotSel rest) :
    parseId ('#' :: (tok ++ rest)) = some (some tok, rest) := by
  obtain ⟨h1, h2⟩ := takeWhile_token_append tok rest (all_selChar_of_isToken tok ht) hr
  rw [parseId]
  simp only [h1, h2, if_pos ht]
  simp

theorem parseId_none (rest : Str) (h : rest.head? ≠ some '#') :
    parseId rest = some (none, rest) := by
  cases rest with
  | nil => rfl
  | cons c r =>
    have hc : ¬ c = '#' := by
      intro hcc
      exact h (by rw [hcc]; rfl)
    rw [parseId, if_neg hc]

theorem parseReps_nil (sig : Char) (rest : Str)
    (hne : rest.head? ≠ some sig) :
    parseReps sig rest = some ([], rest) := by
  cases rest with
  | nil => rw [parseReps]
  | cons c r =>
    have hc : ¬ c = sig := by
      intro hcc
      exact hne (by rw [hcc]; rfl)
    rw [parseReps, if_neg hc]

theorem parseReps_spec (sig : Char) (hsig : isSelChar sig = false)
    (toks : List Str) (rest : Str)
    (ht : ∀ t ∈ toks, isToken t = true)
    (hr : headNotSel rest) (hne : rest.head? ≠ some sig) :
    parseReps sig (toks.flatMap (fun t => sig :: t) ++ rest)
      = some (toks, rest) := by
  induction toks with
  | nil => simpa using parseReps_nil sig rest hne
  | cons t ts ih =>
    have htt : isToken t = true := ht t (by simp)
    have hts : ∀ t' ∈ ts, isToken t' = true := fun t' h' => ht t' (by simp [h'])
    have hrest' : headNotSel (ts.flatMap (fun t => sig :: t) ++ rest) := by
      cases ts with
      | nil => simpa using hr
      | cons u us =>
        intro c hc
        simp only [List.flatMap_cons, List.cons_append, List.append_assoc,
          List.head?] at hc
        obtain rfl : sig = c := by injection hc
        exact hsig
    obtain ⟨h1, h2⟩ := takeWhile_token_append t _
      (all_selChar_of_isToken t htt) hrest'
    have : (t :: ts).flatMap (fun t => sig :: t) ++ rest
        = sig :: (t ++ (ts.flatMap (fun t => sig :: t) ++ rest)) := by
      simp
    rw [this, parseReps, if_pos rfl]
    simp only [h1, h2, if_pos htt]
    rw [ih hts]

theorem parseAttrs_nil (rest : Str) (hne : rest.head? ≠ some '[') :
    parseAttrs rest = some ([], rest) := by
  cases rest with
  | nil => rw [parseAttrs]
  | cons c r =>
    have hc : ¬ c = '[' := by
      intro hcc
      exact hne (by rw [hcc]; rfl)
    rw [parseAttrs, if_neg hc]

theorem parseAttrs_spec (pairs : List (Str × Str)) (rest : Str)
    (hp : ∀ p ∈ pairs, isToken p.1 = true ∧ isToken p.2 = true)
    (hne : rest.head? ≠ some '[') :
    parseAttrs (pairs.flatMap (fun p => '[' :: (p.1 ++ '=' :: p.2 ++ [']'])) ++ rest)
      = some (pairs, rest) := by
  induction pairs with
  | nil => simpa using parseAttrs_nil rest hne
  | cons p ps ih =>
    obtain ⟨hk, hv⟩ := hp p (by simp)
    have hps : ∀ q ∈ ps, isToken q.1 = true ∧ isToken q.2 = true :=
      fun q h' => hp q (by simp [h'])
    have heq : (p :: ps).flatMap (fun p => '[' :: (p.1 ++ '=' :: p.2 ++ [']'])) ++ rest
        = '[' :: (p.1 ++ ('=' :: (p.2 ++ (']' ::
            (ps.flatMap (fun p => '[' :: (p.1 ++ '=' :: p.2 ++ [']'])) ++ rest))))) := by
      simp
    have hns1 : headNotSel ('=' :: (p.2 ++ (']' ::
        (ps.flatMap (fun p => '[' :: (p.1 ++ '=' :: p.2 ++ [']'])) ++ rest)))) := by
      intro c hc
      simp only [List.head?] at hc
      obtain rfl : '=' = c := by injection hc
      decide
    have hns2 : headNotSel (']' ::
        (ps.flatMap (fun p => '[' :: (p.1 ++ '=' :: p.2 ++ [']'])) ++ rest)) := by
      intro c hc
      simp only [List.head?] at hc
      obtain rfl : ']' = c := by injection hc
      decide
    obtain ⟨hk1, hk2⟩ := takeWhile_token_append p.1
      ('=' :: (p.2 ++ (']' :: (ps.flatMap (fun p => '[' :: (p.1 ++ '=' :: p.2 ++ [']'])) ++ rest))))
      (all_selChar_of_isToken p.1 hk) hns1
    obtain ⟨hv1, hv2⟩ := takeWhile_token_append p.2
      (']' :: (ps.flatMap (fun p => '[' :: (p.1 ++ '=' :: p.2 ++ [']'])) ++ rest))
      (all_selChar_of_isToken p.2 hv) hns2
    rw [heq, parseAttrs]
    simp only [hk1, if_pos hk]
    rw [if_pos trivial]
    split
    case _ r2 hr1 =>
      rw [hk2] at hr1
      obtain rfl : _ = r2 := by injection hr1
      rw [if_pos (by rw [hv1]; exact hv)]
      split
      case _ r4 hr3 =>
        rw [hv2] at hr3
        obtain rfl : _ = r4 := by injection hr3
        rw [ih hps, hv1]
      case _ hr3 =>
        exact ((hr3 _ hv2).elim : _)
    case _ hr1 =>
      exact ((hr1 _ hk2).elim : _)


theorem head_ne_of_startsIn (cs : List Char) (r : Str) (c : Char)
    (h : startsIn cs r) (hc : c ∉ cs) : r.head? ≠ some c :=
  fun hh => hc (h c hh)

theorem startsIn_flatMap (c : Char) {α : Type} (g : α → Str) (l : List α) :
    startsIn [c] (l.flatMap (fun x => c :: g x)) := by
  cases l with
  | nil => exact startsIn_nil _
  | cons x xs =>
    rw [List.flatMap_cons]
    exact startsIn_cons _ _ _ (by simp)

theorem dictInsert_of_not_mem (m : List (Str × α)) (k : Str) (v : α)
    (h : ∀ p ∈ m, p.1 ≠ k) : dictInsert m k v = m ++ [(k, v)] := by
  induction m with
  | nil => rfl
  | cons hd tl ih =>
    have hne : ¬ hd.1 = k := h hd (by simp)
    rw [dictInsert, if_neg hne, ih (fun p hp => h p (by simp [hp]))]
    rfl

theorem foldl_dictInsert_nodup (l : List (Str × Str)) :
    ∀ acc : List (Str × Str),
      (∀ p ∈ l, ∀ q ∈ acc, q.1 ≠ p.1) → (l.map Prod.fst).Nodup →
      l.foldl (fun m p => dictInsert m p.1 p.2) acc = acc ++ l := by
  induction l with
  | nil => intro acc _ _; simp
  | cons hd tl ih =>
    intro acc hdisj hnodup
    simp only [List.map_cons, List.nodup_cons] at hnodup
    simp only [List.foldl_cons]
    rw [dictInsert_of_not_mem acc hd.1 hd.2
      (fun q hq => hdisj hd (by simp) q hq)]
    rw [ih (acc ++ [(hd.1, hd.2)]) ?_ hnodup.2]
    · simp
    · intro p hp q hq
      rcases List.mem_append.mp hq with h | h
      · exact hdisj p (by simp [hp]) q h
      · simp only [List.mem_singleton] at h
        subst h
        intro hc
        exact hnodup.1 (by
          rw [hc]
          exact List.mem_map.mpr ⟨p, hp, rfl⟩)

/-- `Selector.parse` rejects `"*"` (its Python default argument!): the
wildcard is not a token character, so `re.fullmatch` fails and the Python
code raises `ValueError`. -/
theorem parse_star_aux (parent : Option Selector) :
    Selector.parse ['*'] parent = none := by
  have h1 : parseTag ['*'] = some (none, ['*']) := by rw [parseTag]; rfl
  have h2 : parseId ['*'] = some (none, ['*']) := by rw [parseId]; rfl
  have h3 : parseReps '.' ['*'] = some ([], ['*']) :=
    parseReps_nil '.' ['*'] (by decide)
  have h4 : parseReps ':' ['*'] = some ([], ['*']) :=
    parseReps_nil ':' ['*'] (by decide)
  have h5 : parseAttrs ['*'] = some ([], ['*']) :=
    parseAttrs_nil ['*'] (by decide)
  simp [Selector.parse, h1, h2, h3, h4, h5]

/-- C1 (amended): round-trip holds for every `Selector` built purely from
`{tag, id, classes, states, attrs}` whose components are words of the
selector grammar's `TOKEN` language and whose attribute keys are distinct
(as `**attrs` keyword arguments necessarily are): parsing the
serialization succeeds and re-serialization is the identity on the CSS
string.  (It in fact returns a structurally identical selector.) -/
theorem selector_roundtrip (tag id : Option Str) (classes states : List Str)
    (attrs : List (Str × Str))
    (htag : tag.all isToken = true)
    (hid : id.all isToken = true)
    (hcls : classes.all isToken = true)
    (hsts : states.all isToken = true)
    (hattrs : attrs.all (fun p => isToken p.1 && isToken p.2) = true)
    (hnodup : (attrs.map Prod.fst).Nodup) :
    ∃ t, Selector.parse
          (Selector.css (Selector.mk tag id classes states attrs none)) none
        = some t
      ∧ Selector.css t
        = Selector.css (Selector.mk tag id classes states attrs none) := by
  refine ⟨Selector.mk tag id classes states attrs none, ?_, rfl⟩
  have hC' : ∀ c ∈ classes, isToken c = true := by
    intro c hc
    simpa using List.all_eq_true.mp hcls c hc
  have hS' : ∀ st ∈ states, isToken st = true := by
    intro st hst
    simpa using List.all_eq_true.mp hsts st hst
  have hA' : ∀ p ∈ attrs, isToken p.1 = true ∧ isToken p.2 = true := by
    intro p hp
    have := List.all_eq_true.mp hattrs p hp
    simpa [Bool.and_eq_true] using this
  -- the serialized pieces after the id
  have sAP : startsIn ['[']
      (attrs.flatMap (fun p => '[' :: (p.1 ++ '=' :: p.2 ++ [']']))) :=
    startsIn_flatMap '[' _ attrs
  have sSP : startsIn [':'] (states.flatMap (fun st => ':' :: st)) :=
    startsIn_flatMap ':' _ states
  have sCP : startsIn ['.'] (classes.flatMap (fun c => '.' :: c)) :=
    startsIn_flatMap '.' _ classes
  have sSA : startsIn [':', '[']
      (states.flatMap (fun st => ':' :: st)
        ++ attrs.flatMap (fun p => '[' :: (p.1 ++ '=' :: p.2 ++ [']']))) :=
    startsIn_append _ _ _
      (startsIn_mono _ _ _ (by decide) sSP)
      (startsIn_mono _ _ _ (by decide) sAP)
  have sCSA : startsIn ['.', ':', '[']
      (classes.flatMap (fun c => '.' :: c)
        ++ (states.flatMap (fun st => ':' :: st)
          ++ attrs.flatMap (fun p => '[' :: (p.1 ++ '=' :: p.2 ++ [']'])))) :=
    startsIn_append _ _ _
      (startsIn_mono _ _ _ (by decide) sCP)
      (startsIn_mono _ _ _ (by decide) sSA)
  -- the group parsers recover each component
  have pA : parseAttrs
      (attrs.flatMap (fun p => '[' :: (p.1 ++ '=' :: p.2 ++ [']'])))
      = some (attrs, []) := by
    have := parseAttrs_spec attrs [] hA' (by simp)
    simpa using this
  have pS : parseReps ':'
      (states.flatMap (fun st => ':' :: st)
        ++ attrs.flatMap (fun p => '[' :: (p.1 ++ '=' :: p.2 ++ [']'])))
      = some (states,
          attrs.flatMap (fun p => '[' :: (p.1 ++ '=' :: p.2 ++ [']']))) := by
    exact parseReps_spec ':' (by decide) states _ hS'
      (headNotSel_of_startsIn _ _ (by decide) sAP)
      (head_ne_of_startsIn _ _ _ sAP (by decide))
  have pC : parseReps '.'
      (classes.flatMap (fun c => '.' :: c)
        ++ (states.flatMap (fun st => ':' :: st)
          ++ attrs.flatMap (fun p => '[' :: (p.1 ++ '=' :: p.2 ++ [']']))))
      = some (classes,
          states.flatMap (fun st => ':' :: st)
            ++ attrs.flatMap (fun p => '[' :: (p.1 ++ '=' :: p.2 ++ [']']))) := by
    exact parseReps_spec '.' (by decide) classes _ hC'
      (headNotSel_of_startsIn _ _ (by decide) sSA)
      (head_ne_of_startsIn _ _ _ sSA (by decide))
  have hfold : attrs.foldl (fun m p => dictInsert m p.1 p.2) [] = attrs := by
    have := foldl_dictInsert_nodup attrs [] (by simp) hnodup
    simpa using this
  -- tag and id groups
  have sIP : startsIn ['#'] (optIdStr id) := by
    cases id with
    | none => exact startsIn_nil _
    | some i =>
      by_cases hi : i.isEmpty
      · simp only [optIdStr, hi, if_true]
        exact startsIn_nil _
      · simp only [Bool.not_eq_true] at hi
        simp only [optIdStr, hi, Bool.false_eq_true, if_false]
        exact startsIn_cons _ _ _ (by simp)
  have sIPrest : startsIn ['#', '.', ':', '['] (optIdStr id
    ++ (classes.flatMap (fun c => '.' :: c)
      ++ (states.flatMap (fun st => ':' :: st)
        ++ attrs.flatMap (fun p => '[' :: (p.1 ++ '=' :: p.2 ++ [']']))))) :=
    startsIn_append _ _ _ (startsIn_mono _ _ _ (by decide) sIP)
      (startsIn_mono _ _ _ (by decide) sCSA)
  have pI : ∀ rest : Str, startsIn ['.', ':', '['] rest →
      parseId (optIdStr id ++ rest) = some (id, rest) := by
    intro rest hrest
    cases id with
    | none =>
      simpa [optIdStr] using
        parseId_none rest (head_ne_of_startsIn _ _ _ hrest (by decide))
    | some i =>
      have hiT : isToken i = true := by simpa using hid
      have hine : i.isEmpty = false := by
        cases i with
        | nil => exact absurd hiT (by simp [isToken, tokenFrom])
        | cons _ _ => rfl
      simp only [optIdStr, hine, Bool.false_eq_true, if_false, List.cons_append]
      exact parseId_some i rest hiT (headNotSel_of_startsIn _ _ (by decide) hrest)
  have pT : ∀ rest : Str, startsIn ['#', '.', ':', '['] rest →
      parseTag (optTagStr tag ++ rest) = some (tag, rest) := by
    intro rest hrest
    cases tag with
    | none =>
      simpa [optTagStr] using
        parseTag_notag rest (headNotSel_of_startsIn _ _ (by decide) hrest)
    | some t =>
      have htT : isToken t = true := by simpa using htag
      have htne : t.isEmpty = false := by
        cases t with
        | nil => exact absurd htT (by simp [isToken, tokenFrom])
        | cons _ _ => rfl
      simp only [optTagStr, htne, Bool.false_eq_true, if_false]
      exact parseTag_token t rest htT (headNotSel_of_startsIn _ _ (by decide) hrest)
  have hcss : Selector.css (Selector.mk tag id classes states attrs none)
      = optTagStr tag
        ++ (optIdStr id
        ++ (classes.flatMap (fun c => '.' :: c)
        ++ (states.flatMap (fun st => ':' :: st)
        ++ attrs.flatMap (fun p => '[' :: (p.1 ++ '=' :: p.2 ++ [']']))))) := by
    rw [Selector.css]
    simp only [List.nil_append, List.append_assoc]
  rw [hcss]
  simp only [Selector.parse]
  rw [pT _ sIPrest]
  simp only [Option.bind_eq_bind, Option.some_bind]
  rw [pI _ sCSA]
  simp only [Option.some_bind]
  rw [pC]
  simp only [Option.some_bind]
  rw [pS]
  simp only [Option.some_bind]
  rw [pA]
  simp only [Option.some_bind, List.isEmpty_nil, if_true, hfold]


/-- Witness for `selector_roundtrip` on `div#main.bar.foo:hover[state=on]`. -/
theorem selector_roundtrip_witness :
    ((some "div".toList : Option Str).all isToken = true
      ∧ (some "main".toList : Option Str).all isToken = true
      ∧ (["bar".toList, "foo".toList].all isToken) = true
      ∧ (["hover".toList].all isToken) = true
      ∧ ([("state".toList, "on".toList)].all
          (fun p => isToken p.1 && isToken p.2)) = true
      ∧ (([("state".toList, "on".toList)].map Prod.fst).Nodup))
    ∧ ∃ t, Selector.parse (Selector.css (Selector.mk (some "div".toList)
          (some "main".toList) ["bar".toList, "foo".toList] ["hover".toList]
          [("state".toList, "on".toList)] none)) none = some t
        ∧ Selector.css t = Selector.css (Selector.mk (some "div".toList)
            (some "main".toList) ["bar".toList, "foo".toList] ["hover".toList]
            [("state".toList, "on".toList)] none) :=
  ⟨⟨by decide, by decide, by decide, by decide, by decide, by decide⟩,
    selector_roundtrip _ _ _ _ _ (by decide) (by decide) (by decide)
      (by decide) (by decide) (by decide)⟩

/-- C1 as frozen is false: it quantifies over selectors built from arbitrary
strings, and `Selector(tag="*")` serializes to `"*"`, which `Selector.parse`
rejects (the Python code raises `ValueError`), so `parse(s.css()).css()` is
not defined there, let alone equal to `s.css()`. -/
theorem selector_roundtrip_counterexample :
    Selector.css (Selector.mk (some ['*']) none [] [] [] none) = ['*']
    ∧ Selector.parse
        (Selector.css (Selector.mk (some ['*']) none [] [] [] none)) none
      = none := by
  have hcss : Selector.css (Selector.mk (some ['*']) none [] [] [] none)
      = ['*'] := by
    rw [Selector.css]
    rfl
  exact ⟨hcss, by rw [hcss]; exact parse_star_aux none⟩

/-! ## `violetear/style.py` -/

/-- Python exceptions raised by the modelled code. -/
inductive PyErr where
  | attributeError
  | valueError
deriving DecidableEq

/-- `Style`: a selector, a rules dict (attribute → stringified value), a
children dict keyed by serialized selector, and an optional parent style.
The animation/transition bookkeeping fields of `Style.__init__`
(`_transitions`, `_transforms`, `_animations`, `_animation_configs`) are
omitted: no operation modelled here reads or writes them. -/
inductive Style where
  | mk (selector : Option Selector) (rules : List (Str × Str))
      (children : List (Str × Style)) (parent : Option Style)

def Style.selector : Style → Option Selector
  | .mk s _ _ _ => s

def Style.rules : Style → List (Str × Str)
  | .mk _ r _ _ => r

def Style.children : Style → List (Str × Style)
  | .mk _ _ c _ => c

def Style.parent : Style → Option Style
  | .mk _ _ _ p => p

def Style.setChildren : Style → List (Str × Style) → Style
  | .mk s r _ p, c => .mk s r c p

/-- `Style.__init__`'s docstring says a string selector "is parsed with
`Selector.from_css`", and the code calls `Selector.from_css(selector)` —
but the `Selector` class defines no attribute `from_css` (the parser is
the classmethod `parse`), so the attribute lookup raises
`AttributeError`.  We model the class's `from_css` attribute slot, which
is empty. -/
def selectorFromCssAttr : Option (Str → Selector) := none

/-- The `selector` argument of `Style.__init__`: `None`, a string, or an
already-built `Selector`. -/
inductive SelectorArg where
  | pynone
  | str (s : Str)
  | sel (s : Selector)

/-- `Style.__init__(selector, parent)`. -/
def styleInit (selector : SelectorArg) (parent : Option Style) :
    Except PyErr Style :=
  match selector with
  | .str s =>
    match selectorFromCssAttr with
    | some fromCss => .ok (Style.mk (some (fromCss s)) [] [] parent)
    | none => .error .attributeError
  | .pynone => .ok (Style.mk none [] [] parent)
  | .sel sel => .ok (Style.mk (some sel) [] [] parent)

/-- `Style()` with no arguments. -/
def styleEmpty : Style := Style.mk none [] [] none

/-- `Style.rule(attr, value)`: store the (stringified) value in the rules
dict; values are modelled already stringified. -/
def Style.rule (s : Style) (attr value : Str) : Style :=
  match s with
  | .mk sel rules children parent =>
    .mk sel (dictInsert rules attr value) children parent

/-- Python's `str.replace("_", "-")` (single-character replacement). -/
def snakeToKebab (s : Str) : Str :=
  s.map (fun c => if c = '_' then '-' else c)

/-- `Style.rules(**rules)`: apply `rule` to each kwarg with its name
converted from snake_case to kebab-case. -/
def Style.rulesKw (s : Style) (kwargs : List (Str × Str)) : Style :=
  kwargs.foldl (fun acc p => acc.rule (snakeToKebab p.1) p.2) s

/-- `Style.apply(*others)`: copy every rule of every other style, in
argument order. -/
def Style.apply (s : Style) (others : List Style) : Style :=
  others.foldl
    (fun acc o => o.rules.foldl (fun a p => a.rule p.1 p.2) acc) s

/-- `Style.on(state)`: derive the child selector, fetch the memoized child
style (or build a fresh `Style(selector)`), re-store it under the derived
selector's CSS string and return it.  A `None` selector would raise
`AttributeError` (`None.on`), modelled as `none`. -/
def Style.on (s : Style) (state : Str) : Option (Style × Style) :=
  match s.selector with
  | none => none
  | some sel =>
    let selector := sel.on [state] []
    let key := selector.css
    let style := (dictGet s.children key).getD (Style.mk (some selector) [] [] none)
    some (style, s.setChildren (dictInsert s.children key style))

/-- `Style.children(selector="*", nth=None)`: like `Style.on` but the
child selector comes from `self.selector.children`, whose parse failure
(`ValueError`) propagates. -/
def Style.childrenStyle (s : Style) (selector : Str) (nth : Option ℤ) :
    Option (Style × Style) :=
  match s.selector with
  | none => none
  | some sel =>
    match sel.children selector nth with
    | none => none
    | some derived =>
      let key := derived.css
      let style := (dictGet s.children key).getD (Style.mk (some derived) [] [] none)
      some (style, s.setChildren (dictInsert s.children key style))

theorem rule_rules (s : Style) (attr value : Str) :
    (s.rule attr value).rules = dictInsert s.rules attr value := by
  cases s
  rfl

theorem rule_children (s : Style) (attr value : Str) :
    (s.rule attr value).children = s.children := by
  cases s
  rfl

theorem rule_selector (s : Style) (attr value : Str) :
    (s.rule attr value).selector = s.selector := by
  cases s
  rfl

theorem setChildren_selector (s : Style) (c : List (Str × Style)) :
    (s.setChildren c).selector = s.selector := by
  cases s
  rfl

theorem setChildren_children (s : Style) (c : List (Str × Style)) :
    (s.setChildren c).children = c := by
  cases s
  rfl

theorem setChildren_setChildren (s : Style) (c c' : List (Str × Style)) :
    ((s.setChildren c).setChildren c') = s.setChildren c' := by
  cases s
  rfl


theorem dictGet_eq_none_of_not_mem (m : List (Str × α)) (k : Str)
    (h : ∀ p ∈ m, p.1 ≠ k) : dictGet m k = none := by
  induction m with
  | nil => rfl
  | cons hd tl ih =>
    rw [dictGet, if_neg (h hd (by simp))]
    exact ih (fun p hp => h p (by simp [hp]))

theorem dictGet_foldl_dictInsert (L : List (Str × Str)) :
    ∀ (m : List (Str × Str)) (k : Str), (L.map Prod.fst).Nodup →
      dictGet (L.foldl (fun acc p => dictInsert acc p.1 p.2) m) k
        = match dictGet L k with
          | some v => some v
          | none => dictGet m k := by
  induction L with
  | nil => intro m k _; rfl
  | cons hd tl ih =>
    intro m k hnd
    simp only [List.map_cons, List.nodup_cons] at hnd
    simp only [List.foldl_cons]
    rw [ih _ k hnd.2]
    by_cases hk : hd.1 = k
    · subst hk
      have htl : dictGet tl hd.1 = none :=
        dictGet_eq_none_of_not_mem tl hd.1 (by
          intro p hp hc
          exact hnd.1 (hc ▸ List.mem_map.mpr ⟨p, hp, rfl⟩))
      rw [htl, dictGet_dictInsert]
      rw [show dictGet (hd :: tl) hd.1 = some hd.2 by rw [dictGet, if_pos rfl]]
    · rw [dictGet_dictInsert_ne m hd.1 k hd.2 hk]
      rw [show dictGet (hd :: tl) k = dictGet tl k by rw [dictGet, if_neg hk]]

theorem foldlRule_rules (L : List (Str × Str)) : ∀ s : Style,
    (L.foldl (fun a p => Style.rule a p.1 p.2) s).rules
      = L.foldl (fun m p => dictInsert m p.1 p.2) s.rules := by
  induction L with
  | nil => intro s; rfl
  | cons hd tl ih =>
    intro s
    simp only [List.foldl_cons]
    rw [ih, rule_rules]

theorem foldlRule_children (L : List (Str × Str)) : ∀ s : Style,
    (L.foldl (fun a p => Style.rule a p.1 p.2) s).children = s.children := by
  induction L with
  | nil => intro s; rfl
  | cons hd tl ih =>
    intro s
    simp only [List.foldl_cons]
    rw [ih, rule_children]

theorem foldlRule_selector (L : List (Str × Str)) : ∀ s : Style,
    (L.foldl (fun a p => Style.rule a p.1 p.2) s).selector = s.selector := by
  induction L with
  | nil => intro s; rfl
  | cons hd tl ih =>
    intro s
    simp only [List.foldl_cons]
    rw [ih, rule_selector]

theorem apply_children (others : List Style) : ∀ s : Style,
    (s.apply others).children = s.children := by
  induction others with
  | nil => intro s; rfl
  | cons o os ih =>
    intro s
    simp only [Style.apply, List.foldl_cons] at ih ⊢
    rw [ih, foldlRule_children]

theorem apply_selector (others : List Style) : ∀ s : Style,
    (s.apply others).selector = s.selector := by
  induction others with
  | nil => intro s; rfl
  | cons o os ih =>
    intro s
    simp only [Style.apply, List.foldl_cons] at ih ⊢
    rw [ih, foldlRule_selector]

theorem apply_rules (others : List Style) : ∀ s : Style,
    (s.apply others).rules
      = others.foldl
          (fun m o => o.rules.foldl (fun a p => dictInsert a p.1 p.2) m)
          s.rules := by
  induction others with
  | nil => intro s; rfl
  | cons o os ih =>
    intro s
    simp only [Style.apply, List.foldl_cons] at ih ⊢
    rw [ih, foldlRule_rules]

/-- C6: `Style.apply` copies only the flat rules of its arguments: the
target's `children` (and selector) are never touched; rules are written
in argument order, so the last source holding a key wins — in particular
`Style().rule("color","red").apply(Style().rule("color","blue"))` ends
with `color: blue`. -/
theorem style_apply_spec :
    (∀ (s : Style) (others : List Style),
        (s.apply others).children = s.children
        ∧ (s.apply others).selector = s.selector)
    ∧ dictGet ((styleEmpty.rule "color".toList "red".toList).apply
          [styleEmpty.rule "color".toList "blue".toList]).rules "color".toList
        = some "blue".toList
    ∧ ∀ (s : Style) (others : List Style) (o : Style) (k : Str),
        (o.rules.map Prod.fst).Nodup →
        dictGet ((s.apply (others ++ [o])).rules) k
          = match dictGet o.rules k with
            | some v => some v
            | none => dictGet ((s.apply others).rules) k := by
  refine ⟨fun s others => ⟨apply_children others s, apply_selector others s⟩,
    by decide, ?_⟩
  intro s others o k hnd
  rw [apply_rules, List.foldl_append, apply_rules]
  simp only [List.foldl_cons, List.foldl_nil]
  exact dictGet_foldl_dictInsert o.rules _ k hnd

/-- Witness for `style_apply_spec`'s last conjunct at a concrete style. -/
theorem style_apply_spec_witness :
    (((styleEmpty.rule "color".toList "blue".toList).rules.map Prod.fst).Nodup)
    ∧ dictGet ((styleEmpty.apply
          ([] ++ [styleEmpty.rule "color".toList "blue".toList])).rules)
          "color".toList
        = match dictGet (styleEmpty.rule "color".toList "blue".toList).rules
            "color".toList with
          | some v => some v
          | none => dictGet ((styleEmpty.apply []).rules) "color".toList :=
  ⟨by decide,
    style_apply_spec.2.2 styleEmpty []
      (styleEmpty.rule "color".toList "blue".toList) "color".toList (by decide)⟩

/-- C5: sub-style derivation via `Style.on` is memoized: on a style with a
selector, a second `on("hover")` call returns the same child style and
leaves the parent's children dict unchanged — one child entry, through
which all rule additions are shared, and no duplicate block. -/
theorem style_on_idempotent (s : Style) (st : Str) (sel : Selector)
    (h : s.selector = some sel) :
    ∃ child s1, Style.on s st = some (child, s1)
      ∧ Style.on s1 st = some (child, s1) := by
  refine ⟨(dictGet s.children ((sel.on [st] []).css)).getD
      (Style.mk (some (sel.on [st] [])) [] [] none),
    s.setChildren (dictInsert s.children ((sel.on [st] []).css)
      ((dictGet s.children ((sel.on [st] []).css)).getD
        (Style.mk (some (sel.on [st] [])) [] [] none))), ?_, ?_⟩
  · simp only [Style.on, h]
  · simp only [Style.on, setChildren_selector, h, setChildren_children,
      dictGet_dictInsert, Option.getD_some, dictInsert_dictInsert,
      setChildren_setChildren]

/-- Witness for `style_on_idempotent` on `.btn:hover`. -/
theorem style_on_idempotent_witness :
    (Style.mk (some (Selector.mk none none ["btn".toList] [] [] none))
        [] [] none).selector
      = some (Selector.mk none none ["btn".toList] [] [] none)
    ∧ ∃ child s1,
        Style.on (Style.mk (some (Selector.mk none none ["btn".toList] [] [] none))
          [] [] none) "hover".toList = some (child, s1)
        ∧ Style.on s1 "hover".toList = some (child, s1) :=
  ⟨rfl, style_on_idempotent _ "hover".toList _ rfl⟩

/-- `Style.display(display)`. -/
def Style.display (s : Style) (d : Str) : Style := s.rule "display".toList d

/-- A value passed as `columns`/`rows` to `Style.grid`: an `int`
(`isinstance(columns, int)`, replaced by `repeat(columns, fr(1))`), or
any other template object, modelled by its final `str()` rendering. -/
inductive GridSpec where
  | count (n : ℤ)
  | template (s : Str)
deriving DecidableEq

/-- The stringified template: `str(repeat(n, fr(1)))` is
`"repeat(<n>, 1fr)"`. -/
def gridSpecStr : GridSpec → Str
  | .count n => "repeat(".toList ++ intStr n ++ ", 1fr)".toList
  | .template s => s

/-- Decimal rendering of a float value (sign, integer part, `.`,
fractional digits with trailing zeros trimmed, at least one digit) —
exact for the decimal-valued floats this code produces. -/
def floatStr (q : ℚ) : Str :=
  let sign : Str := if q < 0 then ['-'] else []
  let n := |q|
  let ip := (⌊n⌋).toNat
  let frac := n - (ip : ℚ)
  let digits := (⌊frac * 10 ^ 17⌋).toNat
  let ds := Nat.toDigits 10 digits
  let padded := List.replicate (17 - ds.length) '0' ++ ds
  let trimmed := (padded.reverse.dropWhile (fun c => c = '0')).reverse
  sign ++ Nat.toDigits 10 ip ++ '.' :: (if trimmed.isEmpty then ['0'] else trimmed)

/-- Python `str()` of a number. -/
def pyNumStr : PyNum → Str
  | .i n => intStr n
  | .f q => floatStr q

/-- `Unit.__str__`: `f"{self.value}{self.unit}"`. -/
def unitStr (u : Unit) : Str := pyNumStr u.value ++ u.unit

/-- `Style.grid(columns, rows, auto_columns, auto_rows, gap)`: sets
`display: grid` first, then raises `ValueError("Either columns or rows
must be specified")` when both `columns` and `rows` are absent (the
failure the spec's error taxonomy names `ConfigError`); otherwise emits
the template rule for each present axis (falling back to the `auto`
rule), and always sets `gap` via `Unit.infer(gap, on_float=fr)`. -/
def Style.grid (s : Style) (columns rows : Option GridSpec)
    (autoColumns autoRows : Option Str) (gap : InferArg) :
    Except PyErr Style :=
  let s1 := s.display "grid".toList
  if columns = none ∧ rows = none then
    .error .valueError
  else
    let s2 :=
      match columns with
      | some c => s1.rule "grid-template-columns".toList (gridSpecStr c)
      | none =>
        match autoColumns with
        | some ac => s1.rule "grid-auto-columns".toList ac
        | none => s1
    let s3 :=
      match rows with
      | some r => s2.rule "grid-template-rows".toList (gridSpecStr r)
      | none =>
        match autoRows with
        | some ar => s2.rule "grid-auto-rows".toList ar
        | none => s2
    .ok (s3.rule "gap".toList (unitStr (Unit.infer gap fr px)))

/-- C7: `grid()` with neither `columns` nor `rows` fails fast at the call
site with the configuration error (Python raises
`ValueError("Either columns or rows must be specified")`, the failure the
spec taxonomy names `ConfigError`); with at least one of them present it
never fails, whatever the optional arguments. -/
theorem grid_spec (s : Style) (columns rows : Option GridSpec)
    (autoColumns autoRows : Option Str) (gap : InferArg) :
    (columns = none → rows = none →
      s.grid columns rows autoColumns autoRows gap = .error PyErr.valueError)
    ∧ (columns ≠ none ∨ rows ≠ none →
      ∃ s', s.grid columns rows autoColumns autoRows gap = .ok s') := by
  constructor
  · intro hc hr
    rw [Style.grid.eq_def, if_pos ⟨hc, hr⟩]
  · intro h
    have hne : ¬ (columns = none ∧ rows = none) := by tauto
    rw [Style.grid.eq_def, if_neg hne]
    exact ⟨_, rfl⟩

/-- Witness for `grid_spec`: `grid(columns=3)` succeeds, `grid()` raises. -/
theorem grid_spec_witness :
    ((some (GridSpec.count 3) : Option GridSpec) ≠ none
      ∨ (none : Option GridSpec) ≠ none)
    ∧ (∃ s', styleEmpty.grid (some (GridSpec.count 3)) none none none
        (.num (.i 0)) = .ok s')
    ∧ styleEmpty.grid none none none none (.num (.i 0))
        = .error PyErr.valueError :=
  ⟨Or.inl (by decide),
    (grid_spec styleEmpty (some (GridSpec.count 3)) none none none
      (.num (.i 0))).2 (Or.inl (by decide)),
    (grid_spec styleEmpty none none none none (.num (.i 0))).1 rfl rfl⟩

/-- C9: `Style.__init__` dispatches string selectors to
`Selector.from_css`, an attribute the `Selector` class does not define
(its parser is named `parse`), so `Style(s)` raises `AttributeError` for
every string `s`; constructing from `None` or an already-built `Selector`
succeeds. -/
theorem style_init_string_raises :
    (∀ (s : Str) (parent : Option Style),
        styleInit (SelectorArg.str s) parent = .error PyErr.attributeError)
    ∧ (∀ parent : Option Style,
        ∃ st, styleInit SelectorArg.pynone parent = .ok st)
    ∧ (∀ (sel : Selector) (parent : Option Style),
        ∃ st, styleInit (SelectorArg.sel sel) parent = .ok st) :=
  ⟨fun _ _ => rfl, fun _ => ⟨_, rfl⟩, fun _ _ => ⟨_, rfl⟩⟩

/-- C10: `Selector.parse` invoked with its default argument `"*"` always
raises `ValueError` (`"*"` is outside the grammar), for any parent; and
`Style.children()` called with its default selector `"*"` always raises,
for every style that has a selector. -/
theorem parse_star_default :
    (∀ parent : Option Selector, Selector.parse ['*'] parent = none)
    ∧ (∀ (s : Style) (sel : Selector) (nth : Option ℤ), s.selector = some sel →
        Style.childrenStyle s ['*'] nth = none) := by
  refine ⟨parse_star_aux, ?_⟩
  intro s sel nth h
  have hch : sel.children ['*'] nth = none := by
    rw [Selector.children, parse_star_aux]
    rfl
  simp only [Style.childrenStyle, h, hch]

/-- Witness for `parse_star_default` on a concrete `div` style. -/
theorem parse_star_default_witness :
    (Style.mk (some (Selector.mk (some "div".toList) none [] [] [] none))
        [] [] none).selector
      = some (Selector.mk (some "div".toList) none [] [] [] none)
    ∧ Style.childrenStyle
        (Style.mk (some (Selector.mk (some "div".toList) none [] [] [] none))
          [] [] none) ['*'] none = none :=
  ⟨rfl, parse_star_default.2 _ _ none rfl⟩


/-! ## `violetear/animation.py` -/

/-- The flat rules of an optional style (`[]` for `None`). -/
def optRules : Option Style → List (Str × Str)
  | some st => st.rules
  | none => []

/-- The keyframe style built by one `Animation.at` call:
`rules = Style()`, then `rules.apply(style)` if a style was supplied,
then `rules.rules(**kwargs)` if kwargs were given. -/
def atRules (style : Option Style) (kwargs : List (Str × Str)) : Style :=
  let rules0 := styleEmpty
  let rules1 := match style with
    | some st => rules0.apply [st]
    | none => rules0
  if kwargs.isEmpty then rules1 else rules1.rulesKw kwargs

/-- `Animation`: a name and the `_keyframes` dict.  That dict is keyed by
`Unit` objects, and `Unit` defines neither `__eq__` nor `__hash__`, so
CPython falls back to identity comparison: the freshly constructed
`pc(percent)` of each `at` call is a new object that never equals an
existing key.  `self._keyframes[pc(percent)] = rules` therefore always
appends a new entry, which is how the dict is modelled here. -/
structure Animation where
  name : Str
  keyframes : List (Unit × Style)

/-- `Animation.at(percent, style, **kwargs)` (see `atRules` and the
identity-keyed dict note on `Animation`). -/
def Animation.at (a : Animation) (percent : PyNum) (style : Option Style)
    (kwargs : List (Str × Str)) : Animation :=
  ⟨a.name, a.keyframes ++ [(pc percent, atRules style kwargs)]⟩

theorem rulesKw_rules (s : Style) (kwargs : List (Str × Str)) :
    (s.rulesKw kwargs).rules
      = (kwargs.map (fun p => (snakeToKebab p.1, p.2))).foldl
          (fun m p => dictInsert m p.1 p.2) s.rules := by
  rw [Style.rulesKw,
    show kwargs.foldl (fun acc p => acc.rule (snakeToKebab p.1) p.2) s
      = (kwargs.map (fun p => (snakeToKebab p.1, p.2))).foldl
          (fun a p => a.rule p.1 p.2) s by rw [List.foldl_map],
    foldlRule_rules, List.foldl_map]

theorem atRules_rules (style : Option Style) (kwargs : List (Str × Str))
    (hkw : (kwargs.map (fun p => snakeToKebab p.1)).Nodup)
    (hst : ((optRules style).map Prod.fst).Nodup) :
    ∀ k, dictGet (atRules style kwargs).rules k
      = match dictGet (kwargs.map (fun p => (snakeToKebab p.1, p.2))) k with
        | some v => some v
        | none => dictGet (optRules style) k := by
  intro k
  have hkw' : ((kwargs.map (fun p => (snakeToKebab p.1, p.2))).map Prod.fst).Nodup := by
    rw [List.map_map]
    exact hkw
  have hbase : (match style with
      | some st => styleEmpty.apply [st]
      | none => styleEmpty).rules = optRules style := by
    cases style with
    | none => rfl
    | some st =>
      rw [optRules, apply_rules]
      simp only [List.foldl_cons, List.foldl_nil]
      have := foldl_dictInsert_nodup st.rules [] (by simp) (by simpa [optRules] using hst)
      simpa [styleEmpty] using this
  by_cases hk : kwargs.isEmpty
  · have hknil : kwargs = [] := by simpa [List.isEmpty_iff] using hk
    subst hknil
    have h0 : dictGet
        (List.map (fun p => (snakeToKebab p.1, p.2)) ([] : List (Str × Str))) k
        = none := rfl
    simp only [atRules, List.isEmpty_nil, if_true, h0]
    rw [hbase]
  · simp only [atRules]
    rw [if_neg hk, rulesKw_rules, hbase]
    exact dictGet_foldl_dictInsert _ _ k hkw'

/-- C4 as frozen is false: `Animation.at` does not merge into the keyframe
at that percent.  After `at(0.5, color="red")` and `at(0.5, color="blue")`
the animation holds TWO keyframes, both keyed `pc(0.5)` (the `Unit` keys
compare by identity), the first with only `red`, the second with only
`blue` — not one keyframe with merged rules. -/
theorem animation_at_counterexample :
    (((Animation.mk "a".toList []).at (.f (1/2)) none
        [("color".toList, "red".toList)]).at (.f (1/2)) none
        [("color".toList, "blue".toList)]).keyframes.length = 2
    ∧ ((((Animation.mk "a".toList []).at (.f (1/2)) none
        [("color".toList, "red".toList)]).at (.f (1/2)) none
        [("color".toList, "blue".toList)]).keyframes.map Prod.fst)
      = [pc (.f (1/2)), pc (.f (1/2))]
    ∧ ((((Animation.mk "a".toList []).at (.f (1/2)) none
        [("color".toList, "red".toList)]).at (.f (1/2)) none
        [("color".toList, "blue".toList)]).keyframes.map
          (fun kf => dictGet kf.2.rules "color".toList))
      = [some "red".toList, some "blue".toList] := by
  refine ⟨rfl, rfl, ?_⟩
  rfl

/-- C4 (amended): `Animation.at(percent, style, **rules)` appends a fresh
keyframe — even when a keyframe with an equal percent already exists,
since the `Unit` dict keys compare by object identity — whose rules are
built from that call alone: the supplied style's rules first, then the
kwargs (kebab-cased), later writes overriding earlier ones for the same
attribute within the call.  Earlier keyframes are never merged into,
changed, or removed. -/
theorem animation_at_appends (a : Animation) (percent : PyNum)
    (style : Option Style) (kwargs : List (Str × Str))
    (hkw : (kwargs.map (fun p => snakeToKebab p.1)).Nodup)
    (hst : ((optRules style).map Prod.fst).Nodup) :
    ((a.at percent style kwargs).keyframes.length = a.keyframes.length + 1)
    ∧ ((a.at percent style kwargs).keyframes.take a.keyframes.length
        = a.keyframes)
    ∧ ∃ rules : Style,
        (a.at percent style kwargs).keyframes.getLast?
          = some (pc percent, rules)
        ∧ ∀ k, dictGet rules.rules k
            = match dictGet (kwargs.map (fun p => (snakeToKebab p.1, p.2))) k with
              | some v => some v
              | none => dictGet (optRules style) k := by
  refine ⟨by simp [Animation.at], ?_, atRules style kwargs, ?_, atRules_rules style kwargs hkw hst⟩
  · simp only [Animation.at]
    exact List.take_left _ _
  · simp only [Animation.at]
    exact List.getLast?_concat _

/-- Witness for `animation_at_appends` at a concrete call. -/
theorem animation_at_appends_witness :
    (([("font_size".toList, "12px".toList)].map
        (fun p => snakeToKebab p.1)).Nodup)
    ∧ (((optRules none).map Prod.fst).Nodup)
    ∧ ((((Animation.mk "a".toList []).at (.f (1/4)) none
          [("font_size".toList, "12px".toList)]).keyframes.length
        = (Animation.mk "a".toList []).keyframes.length + 1)
      ∧ (((Animation.mk "a".toList []).at (.f (1/4)) none
          [("font_size".toList, "12px".toList)]).keyframes.take
          (Animation.mk "a".toList []).keyframes.length
        = (Animation.mk "a".toList []).keyframes)
      ∧ ∃ rules : Style,
          ((Animation.mk "a".toList []).at (.f (1/4)) none
            [("font_size".toList, "12px".toList)]).keyframes.getLast?
            = some (pc (.f (1/4)), rules)
          ∧ ∀ k, dictGet rules.rules k
              = match dictGet ([("font_size".toList, "12px".toList)].map
                  (fun p => (snakeToKebab p.1, p.2))) k with
                | some v => some v
                | none => dictGet (optRules none) k) :=
  ⟨by decide, by decide,
    animation_at_appends (Animation.mk "a".toList []) (.f (1/4)) none
      [("font_size".toList, "12px".toList)] (by decide) (by decide)⟩


/-! ## `violetear/presets.py` — `UtilitySystem.define`

`define` flattens `variants` (and `values`, if given): a list whose first
element is a list/tuple/generator is replaced by
`itertools.product(*dims)` (Cartesian product, first dimension varying
slowest, exactly nested-loop order), otherwise each element is wrapped in
a singleton tuple.  The flattened lists are then paired positionally with
`zip` — which silently truncates to the shorter — and for each pair a
style is selected for `.{name(*variant)}` and `rule(style, *value)` is
invoked.  `define` is modelled by the ordered list of
`(class name, value tuple)` pairs it processes; the `StyleSheet.select`
it calls lives outside the modelled sources and only consumes these
pairs. -/

/-- The `variants`/`values` argument: a flat list or a list of parallel
dimensions (the shape `isinstance(_variants[0], (list, tuple))`
dispatches on). -/
inductive VariantsArg (α : Type) where
  | flat (l : List α)
  | dims (l : List (List α))

/-- `itertools.product(*dims)`: nested-loop order, first dimension varies
slowest. -/
def pyProduct {α : Type} : List (List α) → List (List α)
  | [] => [[]]
  | d :: rest => d.flatMap (fun x => (pyProduct rest).map (fun t => x :: t))

/-- The `_variants` (`_values`) list after flattening. -/
def flattenVariants {α : Type} : VariantsArg α → List (List α)
  | .flat l => l.map (fun v => [v])
  | .dims l => pyProduct l

/-- `"-".join(parts)`. -/
def joinDash (parts : List Str) : Str :=
  match parts with
  | [] => []
  | p :: rest => p ++ rest.flatMap (fun r => '-' :: r)

/-- The loop body of `define`, given the flattened variant and value
tuples: the `(class name, value tuple)` pairs processed, in order. -/
def defineGo {β : Type} (variantTuples : List (List Str))
    (valueTuples : List (List β)) (clss : Str)
    (nameFn : Option (List Str → Str)) : List (Str × List β) :=
  let nm := nameFn.getD (fun variant => joinDash (clss :: variant))
  (variantTuples.zip valueTuples).map (fun pv => ('.' :: nm pv.1, pv.2))

/-- `UtilitySystem.define` with `values` supplied. -/
def UtilitySystem.define {β : Type} (variants : VariantsArg Str)
    (values : VariantsArg β) (clss : Str)
    (nameFn : Option (List Str → Str)) : List (Str × List β) :=
  defineGo (flattenVariants variants) (flattenVariants values) clss nameFn

/-- `UtilitySystem.define` with `values=None`: `_values = _variants`. -/
def UtilitySystem.defineNone (variants : VariantsArg Str) (clss : Str)
    (nameFn : Option (List Str → Str)) : List (Str × List Str) :=
  defineGo (flattenVariants variants) (flattenVariants variants) clss nameFn

theorem zip_getElem?_some {α β : Type} (l : List α) (l' : List β) (i : ℕ)
    (hi : i < l.length) (hi' : i < l'.length) :
    (l.zip l')[i]? = some (l.get ⟨i, hi⟩, l'.get ⟨i, hi'⟩) := by
  induction l generalizing l' i with
  | nil => simp at hi
  | cons x xs ih =>
    cases l' with
    | nil => simp at hi'
    | cons y ys =>
      cases i with
      | zero => simp
      | succ m =>
        simp only [List.length_cons, Nat.succ_lt_succ_iff] at hi hi'
        simpa [List.zip_cons_cons] using ih ys m hi hi'

theorem flatMap_uniform_length {α β : Type} (f : α → List β) (L : ℕ)
    (hL : ∀ x, (f x).length = L) :
    ∀ d : List α, (d.flatMap f).length = d.length * L := by
  intro d
  induction d with
  | nil => simp
  | cons x xs ih =>
    simp only [List.flatMap_cons, List.length_append, hL, ih, List.length_cons]
    ring

theorem flatMap_uniform_getElem {α β : Type} (f : α → List β) (L : ℕ)
    (hL : ∀ x, (f x).length = L) (d : List α) :
    ∀ (i j : ℕ) (hi : i < d.length), j < L →
      (d.flatMap f)[i * L + j]? = (f (d.get ⟨i, hi⟩))[j]? := by
  induction d with
  | nil => intro i j hi _; simp at hi
  | cons x xs ih =>
    intro i j hi hj
    cases i with
    | zero =>
      simp only [List.flatMap_cons, zero_mul, zero_add]
      rw [List.getElem?_append_left (by rw [hL]; exact hj)]
      rfl
    | succ m =>
      simp only [List.flatMap_cons]
      rw [List.getElem?_append_right (by rw [hL]; nlinarith)]
      simp only [List.length_cons, Nat.succ_lt_succ_iff] at hi
      rw [show (m + 1) * L + j - (f x).length = m * L + j by rw [hL]; ring_nf; omega]
      exact ih m j hi hj

theorem pyProduct_length {α : Type} :
    ∀ ds : List (List α), (pyProduct ds).length = (ds.map List.length).prod := by
  intro ds
  induction ds with
  | nil => rfl
  | cons d rest ih =>
    rw [pyProduct,
      flatMap_uniform_length _ (pyProduct rest).length (fun x => by simp)]
    simp [ih]

theorem pyProduct_singleton {α : Type} (d : List α) :
    pyProduct [d] = d.map (fun y => [y]) := by
  rw [pyProduct]
  induction d with
  | nil => rfl
  | cons y ys ih =>
    rw [List.flatMap_cons, ih, List.map_cons]
    rfl

/-- C8: `UtilitySystem.define` pairs flattened variants with flattened
values positionally (`zip`, not product): the generated rules are exactly
`min(len(variants'), len(values'))` many, the `i`-th pairing the `i`-th
variant tuple (named `"-".join([clss, *variant])` unless a `name`
function is supplied) with the `i`-th value tuple; multi-dimensional
variants expand to the Cartesian product with the first dimension varying
slowest (nested-loop order), with `prod(len(d) for d in dims)` tuples. -/
theorem define_zip_truncates {β : Type} (variants : VariantsArg Str)
    (values : VariantsArg β) (clss : Str) (nameFn : Option (List Str → Str)) :
    ((UtilitySystem.define variants values clss nameFn).length
        = min (flattenVariants variants).length (flattenVariants values).length)
    ∧ (∀ (i : ℕ) (hv : i < (flattenVariants variants).length)
          (hw : i < (flattenVariants values).length),
        (UtilitySystem.define variants values clss nameFn)[i]?
          = some ('.' :: (nameFn.getD (fun variant => joinDash (clss :: variant)))
                ((flattenVariants variants).get ⟨i, hv⟩),
              (flattenVariants values).get ⟨i, hw⟩))
    ∧ (∀ (d1 d2 : List Str) (i j : ℕ) (hi : i < d1.length) (hj : j < d2.length),
        (flattenVariants (VariantsArg.dims [d1, d2]))[i * d2.length + j]?
          = some (d1.get ⟨i, hi⟩ :: [d2.get ⟨j, hj⟩]))
    ∧ (∀ ds : List (List Str),
        (flattenVariants (VariantsArg.dims ds)).length
          = (ds.map List.length).prod) := by
  refine ⟨?_, ?_, ?_, fun ds => pyProduct_length ds⟩
  · simp [UtilitySystem.define, defineGo]
  · intro i hv hw
    simp only [UtilitySystem.define, defineGo, List.getElem?_map]
    rw [zip_getElem?_some _ _ i hv hw]
    rfl
  · intro d1 d2 i j hi hj
    show (pyProduct [d1, d2])[i * d2.length + j]? = _
    rw [pyProduct]
    have hlen : ∀ x, ((pyProduct [d2]).map (fun t => x :: t)).length = d2.length := by
      intro x
      rw [List.length_map, pyProduct_singleton, List.length_map]
    rw [flatMap_uniform_getElem _ d2.length hlen d1 i j hi hj]
    rw [pyProduct_singleton, List.map_map, List.getElem?_map]
    rw [show d2[j]? = some (d2.get ⟨j, hj⟩) from List.getElem?_eq_getElem hj]
    rfl

/-- Witness for `define_zip_truncates`: two variants, one value —
truncation to one rule — and a 2×2 product instance. -/
theorem define_zip_truncates_witness :
    ((0 : ℕ) < (flattenVariants (VariantsArg.flat ["m".toList, "p".toList])).length
      ∧ (0 : ℕ) < (flattenVariants (VariantsArg.flat (["1".toList] : List Str))).length
      ∧ (1 : ℕ) < ["a".toList, "b".toList].length
      ∧ (1 : ℕ) < ["x".toList, "y".toList].length)
    ∧ (UtilitySystem.define (VariantsArg.flat ["m".toList, "p".toList])
          (VariantsArg.flat (["1".toList] : List Str)) "sz".toList none).length
        = min (flattenVariants (VariantsArg.flat ["m".toList, "p".toList])).length
            (flattenVariants (VariantsArg.flat (["1".toList] : List Str))).length
    ∧ (UtilitySystem.define (VariantsArg.flat ["m".toList, "p".toList])
          (VariantsArg.flat (["1".toList] : List Str)) "sz".toList none)[0]?
        = some ('.' :: ((none : Option (List Str → Str)).getD
              (fun variant => joinDash ("sz".toList :: variant)))
              ((flattenVariants (VariantsArg.flat ["m".toList, "p".toList])).get
                ⟨0, by decide⟩),
            (flattenVariants (VariantsArg.flat (["1".toList] : List Str))).get
              ⟨0, by decide⟩)
    ∧ (flattenVariants (VariantsArg.dims
          [["a".toList, "b".toList], ["x".toList, "y".toList]]))[1 * 2 + 1]?
        = some (["a".toList, "b".toList].get ⟨1, by decide⟩ ::
            [["x".toList, "y".toList].get ⟨1, by decide⟩]) :=
  ⟨⟨by decide, by decide, by decide, by decide⟩,
    (define_zip_truncates (VariantsArg.flat ["m".toList, "p".toList])
      (VariantsArg.flat (["1".toList] : List Str)) "sz".toList none).1,
    (define_zip_truncates (VariantsArg.flat ["m".toList, "p".toList])
      (VariantsArg.flat (["1".toList] : List Str)) "sz".toList none).2.1 0
      (by decide) (by decide),
    (define_zip_truncates (VariantsArg.flat ["m".toList, "p".toList])
      (VariantsArg.flat (["1".toList] : List Str)) "sz".toList none).2.2.1
      ["a".toList, "b".toList] ["x".toList, "y".toList] 1 1 (by decide) (by decide)⟩


/-! ## `violetear/color.py` and the CPython `colorsys` conversions

`Color.towards` converts both endpoints to a 3-tuple in the chosen space
(`rgb`, `hls`, `hsv`), interpolates each channel linearly, and rebuilds a
`Color`.  The conversions go through the standard library's `colorsys`,
transcribed below over exact rationals. -/

/-- `Color`: `{r, g, b: int, a: float}`. -/
structure Color where
  r : ℤ
  g : ℤ
  b : ℤ
  a : ℚ
deriving DecidableEq

/-- `rgb(color)`: decode to `(r/255, g/255, b/255)`. -/
def rgbDecode (c : Color) : ℚ × ℚ × ℚ :=
  ((c.r : ℚ) / 255, (c.g : ℚ) / 255, (c.b : ℚ) / 255)

/-- `rgb(r, g, b, alpha)`: `Color(int(r*255), int(g*255), int(b*255),
alpha)`. -/
def rgbEncode (r g b alpha : ℚ) : Color :=
  ⟨pyTrunc (r * 255), pyTrunc (g * 255), pyTrunc (b * 255), alpha⟩

/-- `colorsys.rgb_to_hls`. -/
def rgb_to_hls (r g b : ℚ) : ℚ × ℚ × ℚ :=
  let maxc := max r (max g b)
  let minc := min r (min g b)
  let sumc := maxc + minc
  let rangec := maxc - minc
  let l := sumc / 2
  if minc = maxc then (0, l, 0)
  else
    let s := if l ≤ 1/2 then rangec / sumc else rangec / (2 - maxc - minc)
    let rc := (maxc - r) / rangec
    let gc := (maxc - g) / rangec
    let bc := (maxc - b) / rangec
    let h := if r = maxc then bc - gc
      else if g = maxc then 2 + rc - bc
      else 4 + gc - rc
    (Int.fract (h / 6), l, s)

/-- `colorsys._v(m1, m2, hue)`. -/
def colorsysV (m1 m2 hue : ℚ) : ℚ :=
  let hue := Int.fract hue
  if hue < 1/6 then m1 + (m2 - m1) * hue * 6
  else if hue < 1/2 then m2
  else if hue < 2/3 then m1 + (m2 - m1) * (2/3 - hue) * 6
  else m1

/-- `colorsys.hls_to_rgb`. -/
def hls_to_rgb (h l s : ℚ) : ℚ × ℚ × ℚ :=
  if s = 0 then (l, l, l)
  else
    let m2 := if l ≤ 1/2 then l * (1 + s) else l + s - l * s
    let m1 := 2 * l - m2
    (colorsysV m1 m2 (h + 1/3), colorsysV m1 m2 h, colorsysV m1 m2 (h - 1/3))

/-- `colorsys.rgb_to_hsv`. -/
def rgb_to_hsv (r g b : ℚ) : ℚ × ℚ × ℚ :=
  let maxc := max r (max g b)
  let minc := min r (min g b)
  let rangec := maxc - minc
  let v := maxc
  if minc = maxc then (0, 0, v)
  else
    let s := rangec / maxc
    let rc := (maxc - r) / rangec
    let gc := (maxc - g) / rangec
    let bc := (maxc - b) / rangec
    let h := if r = maxc then bc - gc
      else if g = maxc then 2 + rc - bc
      else 4 + gc - rc
    (Int.fract (h / 6), s, v)

/-- `colorsys.hsv_to_rgb` (`int()` truncates; Python `%` is `emod`). -/
def hsv_to_rgb (h s v : ℚ) : ℚ × ℚ × ℚ :=
  if s = 0 then (v, v, v)
  else
    let i0 := pyTrunc (h * 6)
    let f := h * 6 - i0
    let p := v * (1 - s)
    let q := v * (1 - s * f)
    let t := v * (1 - s * (1 - f))
    let i := i0 % 6
    if i = 0 then (v, t, p)
    else if i = 1 then (q, v, p)
    else if i = 2 then (p, v, t)
    else if i = 3 then (p, q, v)
    else if i = 4 then (t, p, v)
    else (v, p, q)

/-- The three color spaces `Color.towards` accepts. -/
inductive Space where
  | rgb
  | hls
  | hsv
deriving DecidableEq

/-- `space(color)`: decode a `Color` to its 3-tuple in the given space. -/
def spaceDecode (sp : Space) (c : Color) : ℚ × ℚ × ℚ :=
  match sp with
  | .rgb => rgbDecode c
  | .hls => rgb_to_hls (rgbDecode c).1 (rgbDecode c).2.1 (rgbDecode c).2.2
  | .hsv => rgb_to_hsv (rgbDecode c).1 (rgbDecode c).2.1 (rgbDecode c).2.2

/-- `space(x, y, z)`: encode a 3-tuple back to a `Color`
(`alpha` defaults to `1.0`). -/
def spaceEncode (sp : Space) (x y z : ℚ) : Color :=
  match sp with
  | .rgb => rgbEncode x y z 1
  | .hls => rgbEncode (hls_to_rgb x y z).1 (hls_to_rgb x y z).2.1
      (hls_to_rgb x y z).2.2 1
  | .hsv => rgbEncode (hsv_to_rgb x y z).1 (hsv_to_rgb x y z).2.1
      (hsv_to_rgb x y z).2.2 1

/-- `Color.towards(other, percent, space)`: per-channel linear
interpolation `s + (e - s) * percent` of the decoded tuples, re-encoded. -/
def Color.towards (c other : Color) (percent : ℚ) (sp : Space) : Color :=
  spaceEncode sp
    ((spaceDecode sp c).1
      + ((spaceDecode sp other).1 - (spaceDecode sp c).1) * percent)
    ((spaceDecode sp c).2.1
      + ((spaceDecode sp other).2.1 - (spaceDecode sp c).2.1) * percent)
    ((spaceDecode sp c).2.2
      + ((spaceDecode sp other).2.2 - (spaceDecode sp c).2.2) * percent)


/-! ### Facts about truncation, `% 1.0`, and `colorsys._v` -/

theorem pyTrunc_intCast (n : ℤ) : pyTrunc (n : ℚ) = n := by
  rw [pyTrunc]
  by_cases h : (0 : ℚ) ≤ (n : ℚ)
  · rw [if_pos h, Int.floor_intCast]
  · rw [if_neg h, Int.ceil_intCast]

theorem pyTrunc_nonneg (q : ℚ) (h : 0 ≤ q) : pyTrunc q = ⌊q⌋ := if_pos h

theorem fract_self_of (x : ℚ) (h0 : 0 ≤ x) (h1 : x < 1) : Int.fract x = x :=
  Int.fract_eq_self.mpr ⟨h0, h1⟩

theorem fract_add_one_self (x : ℚ) (h0 : -1 ≤ x) (h1 : x < 0) :
    Int.fract x = x + 1 := by
  have h := Int.fract_add_int x 1
  push_cast at h
  rw [← h]
  exact fract_self_of _ (by linarith) (by linarith)

theorem fract_sub_one_self (x : ℚ) (h0 : 1 ≤ x) (h1 : x < 2) :
    Int.fract x = x - 1 := by
  have h := Int.fract_sub_int x 1
  push_cast at h
  rw [← h]
  exact fract_self_of _ (by linarith) (by linarith)

theorem V_first (m1 m2 hue : ℚ) (h1 : Int.fract hue < 1/6) :
    colorsysV m1 m2 hue = m1 + (m2 - m1) * Int.fract hue * 6 := by
  simp only [colorsysV]
  rw [if_pos h1]

theorem V_second (m1 m2 hue : ℚ) (h0 : 1/6 ≤ Int.fract hue)
    (h1 : Int.fract hue < 1/2) : colorsysV m1 m2 hue = m2 := by
  simp only [colorsysV]
  rw [if_neg (not_lt.mpr h0), if_pos h1]

theorem V_third (m1 m2 hue : ℚ) (h0 : 1/2 ≤ Int.fract hue)
    (h1 : Int.fract hue < 2/3) :
    colorsysV m1 m2 hue = m1 + (m2 - m1) * (2/3 - Int.fract hue) * 6 := by
  simp only [colorsysV]
  rw [if_neg (not_lt.mpr (le_trans (by norm_num) h0)),
    if_neg (not_lt.mpr h0), if_pos h1]

theorem V_fourth (m1 m2 hue : ℚ) (h0 : 2/3 ≤ Int.fract hue) :
    colorsysV m1 m2 hue = m1 := by
  simp only [colorsysV]
  rw [if_neg (not_lt.mpr (le_trans (by norm_num) h0)),
    if_neg (not_lt.mpr (le_trans (by norm_num) h0)), if_neg (not_lt.mpr h0)]

/-- On the `(h, l, s)` produced by `rgb_to_hls` from a non-degenerate
pixel, `hls_to_rgb` computes `m2 = maxc` and `m1 = minc` and returns the
three `_v` samples around `h`. -/
theorem hls_core (mx mn : ℚ) (h0 : 0 ≤ mn) (hlt : mn < mx) (h1 : mx ≤ 1)
    (h : ℚ) :
    hls_to_rgb h ((mx + mn) / 2)
      (if (mx + mn) / 2 ≤ 1/2 then (mx - mn) / (mx + mn)
        else (mx - mn) / (2 - mx - mn))
      = (colorsysV mn mx (h + 1/3), colorsysV mn mx h,
          colorsysV mn mx (h - 1/3)) := by
  have hsum : 0 < mx + mn := by linarith
  have h2sum : 0 < 2 - mx - mn := by linarith
  have hrange : 0 < mx - mn := by linarith
  by_cases hc : (mx + mn) / 2 ≤ 1/2
  · have hs : (mx - mn) / (mx + mn) ≠ 0 :=
      ne_of_gt (div_pos hrange hsum)
    simp only [hls_to_rgb, if_pos hc]
    rw [if_neg hs]
    have hm2 : (mx + mn) / 2 * (1 + (mx - mn) / (mx + mn)) = mx := by
      field_simp
      ring
    rw [hm2]
    have hm1 : 2 * ((mx + mn) / 2) - mx = mn := by ring
    rw [hm1]
  · have hs : (mx - mn) / (2 - mx - mn) ≠ 0 :=
      ne_of_gt (div_pos hrange h2sum)
    simp only [hls_to_rgb, if_neg hc]
    rw [if_neg hs]
    have hm2 : (mx + mn) / 2 + (mx - mn) / (2 - mx - mn)
        - (mx + mn) / 2 * ((mx - mn) / (2 - mx - mn)) = mx := by
      field_simp
      ring
    rw [hm2]
    have hm1 : 2 * ((mx + mn) / 2) - mx = mn := by ring
    rw [hm1]


set_option maxHeartbeats 1000000

/-- `hls_to_rgb ∘ rgb_to_hls` is the identity on `[0,1]³` (over exact
rationals). -/
theorem hls_roundtrip (r g b : ℚ) (h0r : 0 ≤ r) (h1r : r ≤ 1) (h0g : 0 ≤ g)
    (h1g : g ≤ 1) (h0b : 0 ≤ b) (h1b : b ≤ 1) :
    hls_to_rgb (rgb_to_hls r g b).1 (rgb_to_hls r g b).2.1
      (rgb_to_hls r g b).2.2 = (r, g, b) := by
  by_cases heq : min r (min g b) = max r (max g b)
  · -- degenerate pixel: r = g = b
    have e1 : g ≤ max r (max g b) := le_trans (le_max_left _ _) (le_max_right _ _)
    have e2 : min r (min g b) ≤ g := le_trans (min_le_right _ _) (min_le_left _ _)
    have e3 : r ≤ max r (max g b) := le_max_left _ _
    have e4 : min r (min g b) ≤ r := min_le_left _ _
    have e5 : b ≤ max r (max g b) :=
      le_trans (le_max_right _ _) (le_max_right _ _)
    have e6 : min r (min g b) ≤ b := le_trans (min_le_right _ _) (min_le_right _ _)
    have hg : g = r := by linarith
    have hb : b = r := by linarith
    rw [hg, hb]
    have hmm : min r (min r r) = max r (max r r) := by
      rw [min_self, max_self, min_self, max_self]
    have h1 : rgb_to_hls r r r = (0, (r + r)/2, 0) := by
      simp only [rgb_to_hls]
      rw [if_pos hmm]
      rw [max_self, max_self, min_self, min_self]
    have hd1 : (rgb_to_hls r r r).1 = 0 := by rw [h1]
    have hd2 : (rgb_to_hls r r r).2.1 = (r + r)/2 := by rw [h1]
    have hd3 : (rgb_to_hls r r r).2.2 = 0 := by rw [h1]
    rw [hd1, hd2, hd3]
    simp only [hls_to_rgb]
    rw [if_pos trivial]
    have hhalf : (r + r) / 2 = r := by ring
    rw [hhalf]
  · rcases le_or_lt g r with hgr | hgr
    · rcases le_or_lt b r with hbr | hbr
      · -- r is the maximum
        have hmx : max r (max g b) = r := max_eq_left (max_le hgr hbr)
        rcases le_or_lt b g with hbg | hbg
        · -- b ≤ g ≤ r, so minc = b
          have hmn : min r (min g b) = b := by
            rw [min_eq_right hbg, min_eq_right hbr]
          have hbr' : b < r := by
            rcases lt_or_eq_of_le hbr with hlt | hb
            · exact hlt
            · exact absurd (by rw [hmx, hmn, hb]) heq
          have hrange : (0:ℚ) < r - b := by linarith
          have hx : (r - b)/(r - b) - (r - g)/(r - b) = (g - b)/(r - b) := by
            field_simp
          have hconv : rgb_to_hls r g b
              = (Int.fract ((g - b)/(r - b)/6), (r + b)/2,
                  if (r + b)/2 ≤ 1/2 then (r - b)/(r + b)
                    else (r - b)/(2 - r - b)) := by
            simp only [rgb_to_hls, hmx, hmn]
            rw [if_neg (show ¬ b = r from ne_of_lt hbr')]
            rw [if_pos trivial, hx]
          have hc1 : (rgb_to_hls r g b).1
              = Int.fract ((g - b)/(r - b)/6) := by rw [hconv]
          have hc2 : (rgb_to_hls r g b).2.1 = (r + b)/2 := by rw [hconv]
          have hc3 : (rgb_to_hls r g b).2.2
              = if (r + b)/2 ≤ 1/2 then (r - b)/(r + b)
                  else (r - b)/(2 - r - b) := by rw [hconv]
          rw [hc1, hc2, hc3, hls_core r b h0b hbr' h1r]
          have hx0 : 0 ≤ (g - b)/(r - b) := div_nonneg (by linarith) hrange.le
          have hx1 : (g - b)/(r - b) ≤ 1 := (div_le_one hrange).mpr (by linarith)
          rcases lt_or_eq_of_le hgr with hgr' | hgr'
          · -- interior: g < r
            have hxlt : (g - b)/(r - b) < 1 := (div_lt_one hrange).mpr (by linarith)
            have hE : Int.fract ((g - b)/(r - b)/6) = (g - b)/(r - b)/6 :=
              fract_self_of _ (by linarith) (by linarith)
            rw [hE, Prod.mk.injEq, Prod.mk.injEq]
            have hf1 : Int.fract ((g - b)/(r - b)/6 + 1/3)
                = (g - b)/(r - b)/6 + 1/3 :=
              fract_self_of _ (by linarith) (by linarith)
            have hf3 : Int.fract ((g - b)/(r - b)/6 - 1/3)
                = (g - b)/(r - b)/6 + 2/3 := by
              rw [fract_add_one_self _ (by linarith) (by linarith)]
              ring
            refine ⟨?_, ?_, ?_⟩
            · rw [V_second b r _ (by rw [hf1]; linarith) (by rw [hf1]; linarith)]
            · rw [V_first b r _ (by rw [hE]; linarith), hE]
              field_simp
              ring
            · rw [V_fourth b r _ (by rw [hf3]; linarith)]
          · -- boundary: g = r (tie for the maximum)
            subst hgr'
            have hxe : (g - b)/(g - b) = 1 := div_self (ne_of_gt hrange)
            rw [hxe]
            have hE : Int.fract ((1:ℚ)/6) = 1/6 :=
              fract_self_of _ (by norm_num) (by norm_num)
            rw [hE, Prod.mk.injEq, Prod.mk.injEq]
            have hf1 : Int.fract ((1:ℚ)/6 + 1/3) = 1/2 := by
              rw [fract_self_of _ (by norm_num) (by norm_num)]
              norm_num
            have hf3 : Int.fract ((1:ℚ)/6 - 1/3) = 5/6 := by
              rw [fract_add_one_self _ (by norm_num) (by norm_num)]
              norm_num
            refine ⟨?_, ?_, ?_⟩
            · rw [V_third b g _ (by rw [hf1]) (by rw [hf1]; norm_num), hf1]
              ring
            · rw [V_second b g _ (by rw [hE]) (by rw [hE]; norm_num)]
            · rw [V_fourth b g _ (by rw [hf3]; norm_num)]
        · -- g < b ≤ r, so minc = g
          have hmn : min r (min g b) = g := by
            rw [min_eq_left hbg.le, min_eq_right hgr]
          have hgr' : g < r := lt_of_lt_of_le hbg hbr
          have hrange : (0:ℚ) < r - g := by linarith
          have hx : (r - b)/(r - g) - (r - g)/(r - g) = (g - b)/(r - g) := by
            field_simp
          have hconv : rgb_to_hls r g b
              = (Int.fract ((g - b)/(r - g)/6), (r + g)/2,
                  if (r + g)/2 ≤ 1/2 then (r - g)/(r + g)
                    else (r - g)/(2 - r - g)) := by
            simp only [rgb_to_hls, hmx, hmn]
            rw [if_neg (show ¬ g = r from ne_of_lt hgr')]
            rw [if_pos trivial, hx]
          have hc1 : (rgb_to_hls r g b).1
              = Int.fract ((g - b)/(r - g)/6) := by rw [hconv]
          have hc2 : (rgb_to_hls r g b).2.1 = (r + g)/2 := by rw [hconv]
          have hc3 : (rgb_to_hls r g b).2.2
              = if (r + g)/2 ≤ 1/2 then (r - g)/(r + g)
                  else (r - g)/(2 - r - g) := by rw [hconv]
          rw [hc1, hc2, hc3, hls_core r g h0g hgr' h1r]
          have hy1 : -1 ≤ (g - b)/(r - g) := by
            rw [le_div_iff hrange]
            linarith
          have hy0 : (g - b)/(r - g) < 0 :=
            div_neg_of_neg_of_pos (by linarith) hrange
          have hE : Int.fract ((g - b)/(r - g)/6) = (g - b)/(r - g)/6 + 1 :=
            fract_add_one_self _ (by linarith) (by linarith)
          rw [hE, Prod.mk.injEq, Prod.mk.injEq]
          have hf1 : Int.fract ((g - b)/(r - g)/6 + 1 + 1/3)
              = (g - b)/(r - g)/6 + 1/3 := by
            rw [fract_sub_one_self _ (by linarith) (by linarith)]
            ring
          have hf2 : Int.fract ((g - b)/(r - g)/6 + 1)
              = (g - b)/(r - g)/6 + 1 :=
            fract_self_of _ (by linarith) (by linarith)
          have hf3 : Int.fract ((g - b)/(r - g)/6 + 1 - 1/3)
              = (g - b)/(r - g)/6 + 2/3 := by
            rw [show (g - b)/(r - g)/6 + 1 - 1/3 = ((g - b)/(r - g)/6 + 2/3 : ℚ)
              by ring]
            exact fract_self_of _ (by linarith) (by linarith)
          refine ⟨?_, ?_, ?_⟩
          · rw [V_second g r _ (by rw [hf1]; linarith) (by rw [hf1]; linarith)]
          · rw [V_fourth g r _ (by rw [hf2]; linarith)]
          · rw [V_third g r _ (by rw [hf3]; linarith) (by rw [hf3]; linarith),
              hf3]
            field_simp
            ring
      · -- g ≤ r < b: b is the maximum, minc = g
        have hmx : max r (max g b) = b := by
          rw [max_eq_right (le_trans hgr hbr.le), max_eq_right hbr.le]
        have hmn : min r (min g b) = g := by
          rw [min_eq_left (le_trans hgr hbr.le), min_eq_right hgr]
        have hgb' : g < b := lt_of_le_of_lt hgr hbr
        have hrange : (0:ℚ) < b - g := by linarith
        have hx : 4 + (b - g)/(b - g) - (b - r)/(b - g)
            = 4 + (r - g)/(b - g) := by
          field_simp
          ring
        have hconv : rgb_to_hls r g b
            = (Int.fract ((4 + (r - g)/(b - g))/6), (b + g)/2,
                if (b + g)/2 ≤ 1/2 then (b - g)/(b + g)
                  else (b - g)/(2 - b - g)) := by
          simp only [rgb_to_hls, hmx, hmn]
          rw [if_neg (show ¬ g = b from ne_of_lt hgb')]
          rw [if_neg (show ¬ r = b from ne_of_lt hbr)]
          rw [if_neg (show ¬ g = b from ne_of_lt hgb')]
          rw [hx]
        have hc1 : (rgb_to_hls r g b).1
            = Int.fract ((4 + (r - g)/(b - g))/6) := by rw [hconv]
        have hc2 : (rgb_to_hls r g b).2.1 = (b + g)/2 := by rw [hconv]
        have hc3 : (rgb_to_hls r g b).2.2
            = if (b + g)/2 ≤ 1/2 then (b - g)/(b + g)
                else (b - g)/(2 - b - g) := by rw [hconv]
        rw [hc1, hc2, hc3, hls_core b g h0g hgb' h1b]
        have hv0 : 0 ≤ (r - g)/(b - g) := div_nonneg (by linarith) hrange.le
        have hv1 : (r - g)/(b - g) < 1 := (div_lt_one hrange).mpr (by linarith)
        have hE : Int.fract ((4 + (r - g)/(b - g))/6)
            = (4 + (r - g)/(b - g))/6 :=
          fract_self_of _ (by linarith) (by linarith)
        rw [hE, Prod.mk.injEq, Prod.mk.injEq]
        have hf1 : Int.fract ((4 + (r - g)/(b - g))/6 + 1/3)
            = (r - g)/(b - g)/6 := by
          rw [fract_sub_one_self _ (by linarith) (by linarith)]
          ring
        have hf2 : Int.fract ((4 + (r - g)/(b - g))/6)
            = (4 + (r - g)/(b - g))/6 := hE
        have hf3 : Int.fract ((4 + (r - g)/(b - g))/6 - 1/3)
            = (2 + (r - g)/(b - g))/6 := by
          rw [show (4 + (r - g)/(b - g))/6 - 1/3
              = ((2 + (r - g)/(b - g))/6 : ℚ) by ring]
          exact fract_self_of _ (by linarith) (by linarith)
        refine ⟨?_, ?_, ?_⟩
        · rw [V_first g b _ (by rw [hf1]; linarith), hf1]
          field_simp
          ring
        · rw [V_fourth g b _ (by rw [hf2]; linarith)]
        · rw [V_second g b _ (by rw [hf3]; linarith) (by rw [hf3]; linarith)]
    · rcases le_or_lt b g with hbg | hbg
      · -- r < g, b ≤ g: g is the maximum
        have hmx : max r (max g b) = g := by
          rw [max_eq_left hbg, max_eq_right hgr.le]
        rcases le_or_lt b r with hbr2 | hbr2
        · -- b ≤ r < g: minc = b
          have hmn : min r (min g b) = b := by
            rw [min_eq_right hbg, min_eq_right hbr2]
          have hbg' : b < g := lt_of_le_of_lt hbr2 hgr
          have hrange : (0:ℚ) < g - b := by linarith
          have hx : 2 + (g - r)/(g - b) - (g - b)/(g - b)
              = 2 + (b - r)/(g - b) := by
            field_simp
            ring
          have hconv : rgb_to_hls r g b
              = (Int.fract ((2 + (b - r)/(g - b))/6), (g + b)/2,
                  if (g + b)/2 ≤ 1/2 then (g - b)/(g + b)
                    else (g - b)/(2 - g - b)) := by
            simp only [rgb_to_hls, hmx, hmn]
            rw [if_neg (show ¬ b = g from ne_of_lt hbg')]
            rw [if_neg (show ¬ r = g from ne_of_lt hgr)]
            rw [if_pos trivial, hx]
          have hc1 : (rgb_to_hls r g b).1
              = Int.fract ((2 + (b - r)/(g - b))/6) := by rw [hconv]
          have hc2 : (rgb_to_hls r g b).2.1 = (g + b)/2 := by rw [hconv]
          have hc3 : (rgb_to_hls r g b).2.2
              = if (g + b)/2 ≤ 1/2 then (g - b)/(g + b)
                  else (g - b)/(2 - g - b) := by rw [hconv]
          rw [hc1, hc2, hc3, hls_core g b h0b hbg' h1g]
          have hw1 : -1 < (b - r)/(g - b) := by
            rw [lt_div_iff hrange]
            linarith
          have hw0 : (b - r)/(g - b) ≤ 0 := by
            rw [show b - r = -(r - b) by ring, neg_div]
            have := div_nonneg (show (0:ℚ) ≤ r - b by linarith) hrange.le
            linarith
          have hE : Int.fract ((2 + (b - r)/(g - b))/6)
              = (2 + (b - r)/(g - b))/6 :=
            fract_self_of _ (by linarith) (by linarith)
          rw [hE, Prod.mk.injEq, Prod.mk.injEq]
          rcases lt_or_eq_of_le hbr2 with hblt | hbeq
          · -- interior: b < r
            have hwlt : (b - r)/(g - b) < 0 :=
              div_neg_of_neg_of_pos (by linarith) hrange
            have hf1 : Int.fract ((2 + (b - r)/(g - b))/6 + 1/3)
                = (4 + (b - r)/(g - b))/6 := by
              rw [show (2 + (b - r)/(g - b))/6 + 1/3
                  = ((4 + (b - r)/(g - b))/6 : ℚ) by ring]
              exact fract_self_of _ (by linarith) (by linarith)
            have hf3 : Int.fract ((2 + (b - r)/(g - b))/6 - 1/3)
                = 1 + (b - r)/(g - b)/6 := by
              rw [show (2 + (b - r)/(g - b))/6 - 1/3
                  = ((b - r)/(g - b)/6 : ℚ) by ring]
              rw [fract_add_one_self _ (by linarith) (by linarith)]
              ring
            refine ⟨?_, ?_, ?_⟩
            · rw [V_third b g _ (by rw [hf1]; linarith) (by rw [hf1]; linarith),
                hf1]
              field_simp
              ring
            · rw [V_second b g _ (by rw [hE]; linarith) (by rw [hE]; linarith)]
            · rw [V_fourth b g _ (by rw [hf3]; linarith)]
          · -- boundary: b = r
            rw [← hbeq]
            have hz : (b - b)/(g - b) = 0 := by
              rw [sub_self, zero_div]
            rw [hz]
            have hf1 : Int.fract ((2 + (0:ℚ))/6 + 1/3) = 2/3 := by
              rw [fract_self_of _ (by norm_num) (by norm_num)]
              norm_num
            have hf2 : Int.fract ((2 + (0:ℚ))/6) = 1/3 := by
              rw [fract_self_of _ (by norm_num) (by norm_num)]
              norm_num
            have hf3 : Int.fract ((2 + (0:ℚ))/6 - 1/3) = 0 := by
              rw [show (2 + (0:ℚ))/6 - 1/3 = 0 by norm_num]
              exact fract_self_of _ (by norm_num) (by norm_num)
            refine ⟨?_, ?_, ?_⟩
            · rw [V_fourth b g _ (by rw [hf1])]
            · rw [V_second b g _ (by rw [hf2]; norm_num) (by rw [hf2]; norm_num)]
            · rw [V_first b g _ (by rw [hf3]; norm_num), hf3]
              ring
        · -- r < b ≤ g: minc = r
          have hmn : min r (min g b) = r := by
            rw [min_eq_right hbg, min_eq_left hbr2.le]
          have hrg' : r < g := hgr
          have hrange : (0:ℚ) < g - r := by linarith
          have hx : 2 + (g - r)/(g - r) - (g - b)/(g - r)
              = 2 + (b - r)/(g - r) := by
            field_simp
            ring
          have hconv : rgb_to_hls r g b
              = (Int.fract ((2 + (b - r)/(g - r))/6), (g + r)/2,
                  if (g + r)/2 ≤ 1/2 then (g - r)/(g + r)
                    else (g - r)/(2 - g - r)) := by
            simp only [rgb_to_hls, hmx, hmn]
            rw [if_neg (show ¬ r = g from ne_of_lt hgr)]
            rw [if_neg (show ¬ r = g from ne_of_lt hgr)]
            rw [if_pos trivial, hx]
          have hc1 : (rgb_to_hls r g b).1
              = Int.fract ((2 + (b - r)/(g - r))/6) := by rw [hconv]
          have hc2 : (rgb_to_hls r g b).2.1 = (g + r)/2 := by rw [hconv]
          have hc3 : (rgb_to_hls r g b).2.2
              = if (g + r)/2 ≤ 1/2 then (g - r)/(g + r)
                  else (g - r)/(2 - g - r) := by rw [hconv]
          rw [hc1, hc2, hc3, hls_core g r h0r hrg' h1g]
          have hu0 : 0 < (b - r)/(g - r) := div_pos (by linarith) hrange
          have hu1 : (b - r)/(g - r) ≤ 1 := (div_le_one hrange).mpr (by linarith)
          have hE : Int.fract ((2 + (b - r)/(g - r))/6)
              = (2 + (b - r)/(g - r))/6 :=
            fract_self_of _ (by linarith) (by linarith)
          rw [hE, Prod.mk.injEq, Prod.mk.injEq]
          have hf1 : Int.fract ((2 + (b - r)/(g - r))/6 + 1/3)
              = (4 + (b - r)/(g - r))/6 := by
            rw [show (2 + (b - r)/(g - r))/6 + 1/3
                = ((4 + (b - r)/(g - r))/6 : ℚ) by ring]
            exact fract_self_of _ (by linarith) (by linarith)
          have hf3 : Int.fract ((2 + (b - r)/(g - r))/6 - 1/3)
              = (b - r)/(g - r)/6 := by
            rw [show (2 + (b - r)/(g - r))/6 - 1/3
                = ((b - r)/(g - r)/6 : ℚ) by ring]
            exact fract_self_of _ (by linarith) (by linarith)
          rcases lt_or_eq_of_le hu1 with hult | hueq
          · -- interior: b < g
            refine ⟨?_, ?_, ?_⟩
            · rw [V_fourth r g _ (by rw [hf1]; linarith)]
            · rw [V_second r g _ (by rw [hE]; linarith) (by rw [hE]; linarith)]
            · rw [V_first r g _ (by rw [hf3]; linarith), hf3]
              field_simp
              ring
          · -- boundary: b = g
            have h1 := hueq
            rw [div_eq_one_iff_eq (ne_of_gt hrange)] at h1
            have hbg2 : b = g := by linarith
            refine ⟨?_, ?_, ?_⟩
            · rw [V_fourth r g _ (by rw [hf1, hueq]; norm_num)]
            · rw [V_third r g _ (by rw [hE, hueq]; norm_num)
                (by rw [hE, hueq]; norm_num), hE, hueq]
              ring
            · rw [V_second r g _ (by rw [hf3, hueq])
                (by rw [hf3, hueq]; norm_num), hbg2]
      · -- r < g < b: b is the maximum, minc = r
        have hmx : max r (max g b) = b := by
          rw [max_eq_right hbg.le, max_eq_right (le_trans hgr.le hbg.le)]
        have hmn : min r (min g b) = r := by
          rw [min_eq_left hbg.le, min_eq_left hgr.le]
        have hrb' : r < b := lt_trans hgr hbg
        have hrange : (0:ℚ) < b - r := by linarith
        have hx : 4 + (b - g)/(b - r) - (b - r)/(b - r)
            = 4 + (r - g)/(b - r) := by
          field_simp
          ring
        have hconv : rgb_to_hls r g b
            = (Int.fract ((4 + (r - g)/(b - r))/6), (b + r)/2,
                if (b + r)/2 ≤ 1/2 then (b - r)/(b + r)
                  else (b - r)/(2 - b - r)) := by
          simp only [rgb_to_hls, hmx, hmn]
          rw [if_neg (show ¬ r = b from ne_of_lt hrb')]
          rw [if_neg (show ¬ r = b from ne_of_lt hrb')]
          rw [if_neg (show ¬ g = b from ne_of_lt hbg)]
          rw [hx]
        have hc1 : (rgb_to_hls r g b).1
            = Int.fract ((4 + (r - g)/(b - r))/6) := by rw [hconv]
        have hc2 : (rgb_to_hls r g b).2.1 = (b + r)/2 := by rw [hconv]
        have hc3 : (rgb_to_hls r g b).2.2
            = if (b + r)/2 ≤ 1/2 then (b - r)/(b + r)
                else (b - r)/(2 - b - r) := by rw [hconv]
        rw [hc1, hc2, hc3, hls_core b r h0r hrb' h1b]
        have hv0 : (r - g)/(b - r) < 0 :=
          div_neg_of_neg_of_pos (by linarith) hrange
        have hv1 : -1 < (r - g)/(b - r) := by
          rw [lt_div_iff hrange]
          linarith
        have hE : Int.fract ((4 + (r - g)/(b - r))/6)
            = (4 + (r - g)/(b - r))/6 :=
          fract_self_of _ (by linarith) (by linarith)
        rw [hE, Prod.mk.injEq, Prod.mk.injEq]
        have hf1 : Int.fract ((4 + (r - g)/(b - r))/6 + 1/3)
            = (4 + (r - g)/(b - r))/6 + 1/3 :=
          fract_self_of _ (by linarith) (by linarith)
        have hf3 : Int.fract ((4 + (r - g)/(b - r))/6 - 1/3)
            = (2 + (r - g)/(b - r))/6 := by
          rw [show (4 + (r - g)/(b - r))/6 - 1/3
              = ((2 + (r - g)/(b - r))/6 : ℚ) by ring]
          exact fract_self_of _ (by linarith) (by linarith)
        refine ⟨?_, ?_, ?_⟩
        · rw [V_fourth r b _ (by rw [hf1]; linarith)]
        · rw [V_third r b _ (by rw [hE]; linarith) (by rw [hE]; linarith), hE]
          field_simp
          ring
        · rw [V_second r b _ (by rw [hf3]; linarith) (by rw [hf3]; linarith)]


theorem pyTrunc_eq_of (x : ℚ) (k : ℤ) (hk : 0 ≤ (k:ℚ)) (h0 : (k:ℚ) ≤ x)
    (h1 : x < k + 1) : pyTrunc x = k := by
  rw [pyTrunc_nonneg x (le_trans hk h0), Int.floor_eq_iff]
  exact ⟨h0, h1⟩

set_option maxHeartbeats 2000000

/-- `hsv_to_rgb ∘ rgb_to_hsv` is the identity on `[0,1]³` (over exact
rationals). -/
theorem hsv_roundtrip (r g b : ℚ) (h0r : 0 ≤ r) (h1r : r ≤ 1) (h0g : 0 ≤ g)
    (h1g : g ≤ 1) (h0b : 0 ≤ b) (h1b : b ≤ 1) :
    hsv_to_rgb (rgb_to_hsv r g b).1 (rgb_to_hsv r g b).2.1
      (rgb_to_hsv r g b).2.2 = (r, g, b) := by
  by_cases heq : min r (min g b) = max r (max g b)
  · have e1 : g ≤ max r (max g b) := le_trans (le_max_left _ _) (le_max_right _ _)
    have e2 : min r (min g b) ≤ g := le_trans (min_le_right _ _) (min_le_left _ _)
    have e3 : r ≤ max r (max g b) := le_max_left _ _
    have e4 : min r (min g b) ≤ r := min_le_left _ _
    have e5 : b ≤ max r (max g b) :=
      le_trans (le_max_right _ _) (le_max_right _ _)
    have e6 : min r (min g b) ≤ b := le_trans (min_le_right _ _) (min_le_right _ _)
    have hg : g = r := by linarith
    have hb : b = r := by linarith
    rw [hg, hb]
    have hmm : min r (min r r) = max r (max r r) := by
      rw [min_self, max_self, min_self, max_self]
    have h1 : rgb_to_hsv r r r = (0, 0, r) := by
      simp only [rgb_to_hsv]
      rw [if_pos hmm]
      rw [max_self, max_self]
    have hd1 : (rgb_to_hsv r r r).1 = 0 := by rw [h1]
    have hd2 : (rgb_to_hsv r r r).2.1 = 0 := by rw [h1]
    have hd3 : (rgb_to_hsv r r r).2.2 = r := by rw [h1]
    rw [hd1, hd2, hd3]
    simp only [hsv_to_rgb]
    rw [if_pos trivial]
  · rcases le_or_lt g r with hgr | hgr
    · rcases le_or_lt b r with hbr | hbr
      · -- r is the maximum
        have hmx : max r (max g b) = r := max_eq_left (max_le hgr hbr)
        rcases le_or_lt b g with hbg | hbg
        · -- b ≤ g ≤ r, minc = b
          have hmn : min r (min g b) = b := by
            rw [min_eq_right hbg, min_eq_right hbr]
          have hbr' : b < r := by
            rcases lt_or_eq_of_le hbr with hlt | hb
            · exact hlt
            · exact absurd (by rw [hmx, hmn, hb]) heq
          have hrange : (0:ℚ) < r - b := by linarith
          have hr0 : (0:ℚ) < r := by linarith
          have hx : (r - b)/(r - b) - (r - g)/(r - b) = (g - b)/(r - b) := by
            field_simp
          have hconv : rgb_to_hsv r g b
              = (Int.fract ((g - b)/(r - b)/6), (r - b)/r, r) := by
            simp only [rgb_to_hsv, hmx, hmn]
            rw [if_neg (show ¬ b = r from ne_of_lt hbr')]
            rw [if_pos trivial, hx]
          have hc1 : (rgb_to_hsv r g b).1
              = Int.fract ((g - b)/(r - b)/6) := by rw [hconv]
          have hc2 : (rgb_to_hsv r g b).2.1 = (r - b)/r := by rw [hconv]
          have hc3 : (rgb_to_hsv r g b).2.2 = r := by rw [hconv]
          rw [hc1, hc2, hc3]
          have hx0 : 0 ≤ (g - b)/(r - b) := div_nonneg (by linarith) hrange.le
          have hx1 : (g - b)/(r - b) ≤ 1 := (div_le_one hrange).mpr (by linarith)
          have hs0 : (r - b)/r ≠ 0 := ne_of_gt (div_pos hrange hr0)
          rcases lt_or_eq_of_le hgr with hgr' | hgr'
          · -- interior: g < r
            have hxlt : (g - b)/(r - b) < 1 := (div_lt_one hrange).mpr (by linarith)
            have hE : Int.fract ((g - b)/(r - b)/6) = (g - b)/(r - b)/6 :=
              fract_self_of _ (by linarith) (by linarith)
            rw [hE]
            simp only [hsv_to_rgb]
            rw [if_neg hs0]
            have h66 : (g - b)/(r - b)/6 * 6 = (g - b)/(r - b) := by ring
            rw [h66]
            rw [pyTrunc_eq_of _ 0 (by norm_num) (by push_cast; linarith)
              (by push_cast; linarith)]
            rw [if_pos (by decide : (0:ℤ) % 6 = 0)]
            rw [Prod.mk.injEq, Prod.mk.injEq]
            refine ⟨rfl, ?_, ?_⟩
            · push_cast
              field_simp
              ring
            · field_simp
          · -- boundary: g = r
            subst hgr'
            have hxe : (g - b)/(g - b) = 1 := div_self (ne_of_gt hrange)
            rw [hxe]
            have hE : Int.fract ((1:ℚ)/6) = 1/6 :=
              fract_self_of _ (by norm_num) (by norm_num)
            rw [hE]
            simp only [hsv_to_rgb]
            rw [if_neg hs0]
            have h66 : (1:ℚ)/6 * 6 = 1 := by norm_num
            rw [h66]
            rw [pyTrunc_eq_of _ 1 (by norm_num) (by norm_num) (by norm_num)]
            rw [if_neg (by decide : ¬ (1:ℤ) % 6 = 0),
              if_pos (by decide : (1:ℤ) % 6 = 1)]
            rw [Prod.mk.injEq, Prod.mk.injEq]
            refine ⟨?_, rfl, ?_⟩
            · push_cast
              field_simp
            · field_simp
        · -- g < b ≤ r, minc = g
          have hmn : min r (min g b) = g := by
            rw [min_eq_left hbg.le, min_eq_right hgr]
          have hgr' : g < r := lt_of_lt_of_le hbg hbr
          have hrange : (0:ℚ) < r - g := by linarith
          have hr0 : (0:ℚ) < r := by linarith
          have hx : (r - b)/(r - g) - (r - g)/(r - g) = (g - b)/(r - g) := by
            field_simp
          have hconv : rgb_to_hsv r g b
              = (Int.fract ((g - b)/(r - g)/6), (r - g)/r, r) := by
            simp only [rgb_to_hsv, hmx, hmn]
            rw [if_neg (show ¬ g = r from ne_of_lt hgr')]
            rw [if_pos trivial, hx]
          have hc1 : (rgb_to_hsv r g b).1
              = Int.fract ((g - b)/(r - g)/6) := by rw [hconv]
          have hc2 : (rgb_to_hsv r g b).2.1 = (r - g)/r := by rw [hconv]
          have hc3 : (rgb_to_hsv r g b).2.2 = r := by rw [hconv]
          rw [hc1, hc2, hc3]
          have hy1 : -1 ≤ (g - b)/(r - g) := by
            rw [le_div_iff hrange]
            linarith
          have hy0 : (g - b)/(r - g) < 0 :=
            div_neg_of_neg_of_pos (by linarith) hrange
          have hs0 : (r - g)/r ≠ 0 := ne_of_gt (div_pos hrange hr0)
          have hE : Int.fract ((g - b)/(r - g)/6) = (g - b)/(r - g)/6 + 1 :=
            fract_add_one_self _ (by linarith) (by linarith)
          rw [hE]
          simp only [hsv_to_rgb]
          rw [if_neg hs0]
          have h66 : ((g - b)/(r - g)/6 + 1) * 6 = (g - b)/(r - g) + 6 := by
            ring
          rw [h66]
          rw [pyTrunc_eq_of _ 5 (by norm_num) (by push_cast; linarith)
            (by push_cast; linarith)]
          rw [if_neg (by decide : ¬ (5:ℤ) % 6 = 0),
            if_neg (by decide : ¬ (5:ℤ) % 6 = 1),
            if_neg (by decide : ¬ (5:ℤ) % 6 = 2),
            if_neg (by decide : ¬ (5:ℤ) % 6 = 3),
            if_neg (by decide : ¬ (5:ℤ) % 6 = 4)]
          rw [Prod.mk.injEq, Prod.mk.injEq]
          refine ⟨rfl, ?_, ?_⟩
          · field_simp
          · push_cast
            field_simp
            ring
      · -- g ≤ r < b: b is the maximum, minc = g
        have hmx : max r (max g b) = b := by
          rw [max_eq_right (le_trans hgr hbr.le), max_eq_right hbr.le]
        have hmn : min r (min g b) = g := by
          rw [min_eq_left (le_trans hgr hbr.le), min_eq_right hgr]
        have hgb' : g < b := lt_of_le_of_lt hgr hbr
        have hrange : (0:ℚ) < b - g := by linarith
        have hb0 : (0:ℚ) < b := by linarith
        have hx : 4 + (b - g)/(b - g) - (b - r)/(b - g)
            = 4 + (r - g)/(b - g) := by
          field_simp
          ring
        have hconv : rgb_to_hsv r g b
            = (Int.fract ((4 + (r - g)/(b - g))/6), (b - g)/b, b) := by
          simp only [rgb_to_hsv, hmx, hmn]
          rw [if_neg (show ¬ g = b from ne_of_lt hgb')]
          rw [if_neg (show ¬ r = b from ne_of_lt hbr)]
          rw [if_neg (show ¬ g = b from ne_of_lt hgb')]
          rw [hx]
        have hc1 : (rgb_to_hsv r g b).1
            = Int.fract ((4 + (r - g)/(b - g))/6) := by rw [hconv]
        have hc2 : (rgb_to_hsv r g b).2.1 = (b - g)/b := by rw [hconv]
        have hc3 : (rgb_to_hsv r g b).2.2 = b := by rw [hconv]
        rw [hc1, hc2, hc3]
        have hv0 : 0 ≤ (r - g)/(b - g) := div_nonneg (by linarith) hrange.le
        have hv1 : (r - g)/(b - g) < 1 := (div_lt_one hrange).mpr (by linarith)
        have hs0 : (b - g)/b ≠ 0 := ne_of_gt (div_pos hrange hb0)
        have hE : Int.fract ((4 + (r - g)/(b - g))/6)
            = (4 + (r - g)/(b - g))/6 :=
          fract_self_of _ (by linarith) (by linarith)
        rw [hE]
        simp only [hsv_to_rgb]
        rw [if_neg hs0]
        have h66 : (4 + (r - g)/(b - g))/6 * 6 = 4 + (r - g)/(b - g) := by ring
        rw [h66]
        rw [pyTrunc_eq_of _ 4 (by norm_num) (by push_cast; linarith)
          (by push_cast; linarith)]
        rw [if_neg (by decide : ¬ (4:ℤ) % 6 = 0),
          if_neg (by decide : ¬ (4:ℤ) % 6 = 1),
          if_neg (by decide : ¬ (4:ℤ) % 6 = 2),
          if_neg (by decide : ¬ (4:ℤ) % 6 = 3),
          if_pos (by decide : (4:ℤ) % 6 = 4)]
        rw [Prod.mk.injEq, Prod.mk.injEq]
        refine ⟨?_, ?_, rfl⟩
        · push_cast
          field_simp
          ring
        · field_simp
    · rcases le_or_lt b g with hbg | hbg
      · -- r < g, b ≤ g: g is the maximum
        have hmx : max r (max g b) = g := by
          rw [max_eq_left hbg, max_eq_right hgr.le]
        have hg0 : (0:ℚ) < g := by linarith
        rcases le_or_lt b r with hbr2 | hbr2
        · -- b ≤ r < g: minc = b
          have hmn : min r (min g b) = b := by
            rw [min_eq_right hbg, min_eq_right hbr2]
          have hbg' : b < g := lt_of_le_of_lt hbr2 hgr
          have hrange : (0:ℚ) < g - b := by linarith
          have hx : 2 + (g - r)/(g - b) - (g - b)/(g - b)
              = 2 + (b - r)/(g - b) := by
            field_simp
            ring
          have hconv : rgb_to_hsv r g b
              = (Int.fract ((2 + (b - r)/(g - b))/6), (g - b)/g, g) := by
            simp only [rgb_to_hsv, hmx, hmn]
            rw [if_neg (show ¬ b = g from ne_of_lt hbg')]
            rw [if_neg (show ¬ r = g from ne_of_lt hgr)]
            rw [if_pos trivial, hx]
          have hc1 : (rgb_to_hsv r g b).1
              = Int.fract ((2 + (b - r)/(g - b))/6) := by rw [hconv]
          have hc2 : (rgb_to_hsv r g b).2.1 = (g - b)/g := by rw [hconv]
          have hc3 : (rgb_to_hsv r g b).2.2 = g := by rw [hconv]
          rw [hc1, hc2, hc3]
          have hw1 : -1 < (b - r)/(g - b) := by
            rw [lt_div_iff hrange]
            linarith
          have hw0 : (b - r)/(g - b) ≤ 0 := by
            rw [show b - r = -(r - b) by ring, neg_div]
            have := div_nonneg (show (0:ℚ) ≤ r - b by linarith) hrange.le
            linarith
          have hs0 : (g - b)/g ≠ 0 := ne_of_gt (div_pos hrange hg0)
          have hE : Int.fract ((2 + (b - r)/(g - b))/6)
              = (2 + (b - r)/(g - b))/6 :=
            fract_self_of _ (by linarith) (by linarith)
          rw [hE]
          simp only [hsv_to_rgb]
          rw [if_neg hs0]
          have h66 : (2 + (b - r)/(g - b))/6 * 6 = 2 + (b - r)/(g - b) := by
            ring
          rw [h66]
          rcases lt_or_eq_of_le hbr2 with hblt | hbeq
          · -- interior: b < r
            have hwlt : (b - r)/(g - b) < 0 :=
              div_neg_of_neg_of_pos (by linarith) hrange
            rw [pyTrunc_eq_of _ 1 (by norm_num) (by push_cast; linarith)
              (by push_cast; linarith)]
            rw [if_neg (by decide : ¬ (1:ℤ) % 6 = 0),
              if_pos (by decide : (1:ℤ) % 6 = 1)]
            rw [Prod.mk.injEq, Prod.mk.injEq]
            refine ⟨?_, rfl, ?_⟩
            · push_cast
              field_simp
              ring
            · field_simp
          · -- boundary: b = r
            rw [← hbeq]
            have hz : (b - b)/(g - b) = 0 := by rw [sub_self, zero_div]
            rw [hz]
            rw [pyTrunc_eq_of _ 2 (by norm_num) (by push_cast; norm_num)
              (by push_cast; norm_num)]
            rw [if_neg (by decide : ¬ (2:ℤ) % 6 = 0),
              if_neg (by decide : ¬ (2:ℤ) % 6 = 1),
              if_pos (by decide : (2:ℤ) % 6 = 2)]
            rw [Prod.mk.injEq, Prod.mk.injEq]
            refine ⟨?_, rfl, ?_⟩
            · field_simp
            · push_cast
              field_simp
        · -- r < b ≤ g: minc = r
          have hmn : min r (min g b) = r := by
            rw [min_eq_right hbg, min_eq_left hbr2.le]
          have hrg' : r < g := hgr
          have hrange : (0:ℚ) < g - r := by linarith
          have hx : 2 + (g - r)/(g - r) - (g - b)/(g - r)
              = 2 + (b - r)/(g - r) := by
            field_simp
            ring
          have hconv : rgb_to_hsv r g b
              = (Int.fract ((2 + (b - r)/(g - r))/6), (g - r)/g, g) := by
            simp only [rgb_to_hsv, hmx, hmn]
            rw [if_neg (show ¬ r = g from ne_of_lt hgr)]
            rw [if_neg (show ¬ r = g from ne_of_lt hgr)]
            rw [if_pos trivial, hx]
          have hc1 : (rgb_to_hsv r g b).1
              = Int.fract ((2 + (b - r)/(g - r))/6) := by rw [hconv]
          have hc2 : (rgb_to_hsv r g b).2.1 = (g - r)/g := by rw [hconv]
          have hc3 : (rgb_to_hsv r g b).2.2 = g := by rw [hconv]
          rw [hc1, hc2, hc3]
          have hu0 : 0 < (b - r)/(g - r) := div_pos (by linarith) hrange
          have hu1 : (b - r)/(g - r) ≤ 1 := (div_le_one hrange).mpr (by linarith)
          have hs0 : (g - r)/g ≠ 0 := ne_of_gt (div_pos hrange hg0)
          have hE : Int.fract ((2 + (b - r)/(g - r))/6)
              = (2 + (b - r)/(g - r))/6 :=
            fract_self_of _ (by linarith) (by linarith)
          rw [hE]
          simp only [hsv_to_rgb]
          rw [if_neg hs0]
          have h66 : (2 + (b - r)/(g - r))/6 * 6 = 2 + (b - r)/(g - r) := by
            ring
          rw [h66]
          rcases lt_or_eq_of_le hu1 with hult | hueq
          · -- interior: b < g
            rw [pyTrunc_eq_of _ 2 (by norm_num) (by push_cast; linarith)
              (by push_cast; linarith)]
            rw [if_neg (by decide : ¬ (2:ℤ) % 6 = 0),
              if_neg (by decide : ¬ (2:ℤ) % 6 = 1),
              if_pos (by decide : (2:ℤ) % 6 = 2)]
            rw [Prod.mk.injEq, Prod.mk.injEq]
            refine ⟨?_, rfl, ?_⟩
            · field_simp
            · push_cast
              field_simp
              ring
          · -- boundary: b = g
            have h1 := hueq
            rw [div_eq_one_iff_eq (ne_of_gt hrange)] at h1
            have hbg2 : b = g := by linarith
            rw [hueq]
            rw [pyTrunc_eq_of _ 3 (by norm_num) (by push_cast; norm_num)
              (by push_cast; norm_num)]
            rw [if_neg (by decide : ¬ (3:ℤ) % 6 = 0),
              if_neg (by decide : ¬ (3:ℤ) % 6 = 1),
              if_neg (by decide : ¬ (3:ℤ) % 6 = 2),
              if_pos (by decide : (3:ℤ) % 6 = 3)]
            rw [Prod.mk.injEq, Prod.mk.injEq]
            refine ⟨?_, ?_, ?_⟩
            · field_simp
            · push_cast
              field_simp
              ring
            · rw [hbg2]
      · -- r < g < b: b is the maximum, minc = r
        have hmx : max r (max g b) = b := by
          rw [max_eq_right hbg.le, max_eq_right (le_trans hgr.le hbg.le)]
        have hmn : min r (min g b) = r := by
          rw [min_eq_left hbg.le, min_eq_left hgr.le]
        have hrb' : r < b := lt_trans hgr hbg
        have hrange : (0:ℚ) < b - r := by linarith
        have hb0 : (0:ℚ) < b := by linarith
        have hx : 4 + (b - g)/(b - r) - (b - r)/(b - r)
            = 4 + (r - g)/(b - r) := by
          field_simp
          ring
        have hconv : rgb_to_hsv r g b
            = (Int.fract ((4 + (r - g)/(b - r))/6), (b - r)/b, b) := by
          simp only [rgb_to_hsv, hmx, hmn]
          rw [if_neg (show ¬ r = b from ne_of_lt hrb')]
          rw [if_neg (show ¬ r = b from ne_of_lt hrb')]
          rw [if_neg (show ¬ g = b from ne_of_lt hbg)]
          rw [hx]
        have hc1 : (rgb_to_hsv r g b).1
            = Int.fract ((4 + (r - g)/(b - r))/6) := by rw [hconv]
        have hc2 : (rgb_to_hsv r g b).2.1 = (b - r)/b := by rw [hconv]
        have hc3 : (rgb_to_hsv r g b).2.2 = b := by rw [hconv]
        rw [hc1, hc2, hc3]
        have hv0 : (r - g)/(b - r) < 0 :=
          div_neg_of_neg_of_pos (by linarith) hrange
        have hv1 : -1 < (r - g)/(b - r) := by
          rw [lt_div_iff hrange]
          linarith
        have hs0 : (b - r)/b ≠ 0 := ne_of_gt (div_pos hrange hb0)
        have hE : Int.fract ((4 + (r - g)/(b - r))/6)
            = (4 + (r - g)/(b - r))/6 :=
          fract_self_of _ (by linarith) (by linarith)
        rw [hE]
        simp only [hsv_to_rgb]
        rw [if_neg hs0]
        have h66 : (4 + (r - g)/(b - r))/6 * 6 = 4 + (r - g)/(b - r) := by ring
        rw [h66]
        rw [pyTrunc_eq_of _ 3 (by norm_num) (by push_cast; linarith)
          (by push_cast; linarith)]
        rw [if_neg (by decide : ¬ (3:ℤ) % 6 = 0),
          if_neg (by decide : ¬ (3:ℤ) % 6 = 1),
          if_neg (by decide : ¬ (3:ℤ) % 6 = 2),
          if_pos (by decide : (3:ℤ) % 6 = 3)]
        rw [Prod.mk.injEq, Prod.mk.injEq]
        refine ⟨?_, ?_, rfl⟩
        · field_simp
        · push_cast
          field_simp
          ring


/-- The data-model channel range: `{r, g, b: 0–255 int}`. -/
abbrev channelsIn (c : Color) : Prop :=
  0 ≤ c.r ∧ c.r ≤ 255 ∧ 0 ≤ c.g ∧ c.g ≤ 255 ∧ 0 ≤ c.b ∧ c.b ≤ 255

theorem encode_decode (sp : Space) (c : Color) (h : channelsIn c) :
    ((spaceEncode sp (spaceDecode sp c).1 (spaceDecode sp c).2.1
        (spaceDecode sp c).2.2).r = c.r)
    ∧ ((spaceEncode sp (spaceDecode sp c).1 (spaceDecode sp c).2.1
        (spaceDecode sp c).2.2).g = c.g)
    ∧ ((spaceEncode sp (spaceDecode sp c).1 (spaceDecode sp c).2.1
        (spaceDecode sp c).2.2).b = c.b) := by
  obtain ⟨h1, h2, h3, h4, h5, h6⟩ := h
  have hr0 : (0:ℚ) ≤ (c.r:ℚ)/255 := by positivity
  have hr1 : (c.r:ℚ)/255 ≤ 1 :=
    (div_le_one (by norm_num)).mpr (by exact_mod_cast h2)
  have hg0 : (0:ℚ) ≤ (c.g:ℚ)/255 := by positivity
  have hg1 : (c.g:ℚ)/255 ≤ 1 :=
    (div_le_one (by norm_num)).mpr (by exact_mod_cast h4)
  have hb0 : (0:ℚ) ≤ (c.b:ℚ)/255 := by positivity
  have hb1 : (c.b:ℚ)/255 ≤ 1 :=
    (div_le_one (by norm_num)).mpr (by exact_mod_cast h6)
  have hbackr : pyTrunc ((c.r:ℚ)/255 * 255) = c.r := by
    rw [div_mul_cancel₀ _ (by norm_num : (255:ℚ) ≠ 0), pyTrunc_intCast]
  have hbackg : pyTrunc ((c.g:ℚ)/255 * 255) = c.g := by
    rw [div_mul_cancel₀ _ (by norm_num : (255:ℚ) ≠ 0), pyTrunc_intCast]
  have hbackb : pyTrunc ((c.b:ℚ)/255 * 255) = c.b := by
    rw [div_mul_cancel₀ _ (by norm_num : (255:ℚ) ≠ 0), pyTrunc_intCast]
  cases sp with
  | rgb => exact ⟨hbackr, hbackg, hbackb⟩
  | hls =>
    have hco : hls_to_rgb (spaceDecode Space.hls c).1
        (spaceDecode Space.hls c).2.1 (spaceDecode Space.hls c).2.2
        = ((c.r:ℚ)/255, (c.g:ℚ)/255, (c.b:ℚ)/255) :=
      hls_roundtrip _ _ _ hr0 hr1 hg0 hg1 hb0 hb1
    have hco1 : (hls_to_rgb (spaceDecode Space.hls c).1
        (spaceDecode Space.hls c).2.1 (spaceDecode Space.hls c).2.2).1
        = (c.r:ℚ)/255 := by rw [hco]
    have hco2 : (hls_to_rgb (spaceDecode Space.hls c).1
        (spaceDecode Space.hls c).2.1 (spaceDecode Space.hls c).2.2).2.1
        = (c.g:ℚ)/255 := by rw [hco]
    have hco3 : (hls_to_rgb (spaceDecode Space.hls c).1
        (spaceDecode Space.hls c).2.1 (spaceDecode Space.hls c).2.2).2.2
        = (c.b:ℚ)/255 := by rw [hco]
    refine ⟨?_, ?_, ?_⟩
    · show pyTrunc ((hls_to_rgb (spaceDecode Space.hls c).1
        (spaceDecode Space.hls c).2.1 (spaceDecode Space.hls c).2.2).1 * 255)
        = c.r
      rw [hco1]
      exact hbackr
    · show pyTrunc ((hls_to_rgb (spaceDecode Space.hls c).1
        (spaceDecode Space.hls c).2.1 (spaceDecode Space.hls c).2.2).2.1 * 255)
        = c.g
      rw [hco2]
      exact hbackg
    · show pyTrunc ((hls_to_rgb (spaceDecode Space.hls c).1
        (spaceDecode Space.hls c).2.1 (spaceDecode Space.hls c).2.2).2.2 * 255)
        = c.b
      rw [hco3]
      exact hbackb
  | hsv =>
    have hco : hsv_to_rgb (spaceDecode Space.hsv c).1
        (spaceDecode Space.hsv c).2.1 (spaceDecode Space.hsv c).2.2
        = ((c.r:ℚ)/255, (c.g:ℚ)/255, (c.b:ℚ)/255) :=
      hsv_roundtrip _ _ _ hr0 hr1 hg0 hg1 hb0 hb1
    have hco1 : (hsv_to_rgb (spaceDecode Space.hsv c).1
        (spaceDecode Space.hsv c).2.1 (spaceDecode Space.hsv c).2.2).1
        = (c.r:ℚ)/255 := by rw [hco]
    have hco2 : (hsv_to_rgb (spaceDecode Space.hsv c).1
        (spaceDecode Space.hsv c).2.1 (spaceDecode Space.hsv c).2.2).2.1
        = (c.g:ℚ)/255 := by rw [hco]
    have hco3 : (hsv_to_rgb (spaceDecode Space.hsv c).1
        (spaceDecode Space.hsv c).2.1 (spaceDecode Space.hsv c).2.2).2.2
        = (c.b:ℚ)/255 := by rw [hco]
    refine ⟨?_, ?_, ?_⟩
    · show pyTrunc ((hsv_to_rgb (spaceDecode Space.hsv c).1
        (spaceDecode Space.hsv c).2.1 (spaceDecode Space.hsv c).2.2).1 * 255)
        = c.r
      rw [hco1]
      exact hbackr
    · show pyTrunc ((hsv_to_rgb (spaceDecode Space.hsv c).1
        (spaceDecode Space.hsv c).2.1 (spaceDecode Space.hsv c).2.2).2.1 * 255)
        = c.g
      rw [hco2]
      exact hbackg
    · show pyTrunc ((hsv_to_rgb (spaceDecode Space.hsv c).1
        (spaceDecode Space.hsv c).2.1 (spaceDecode Space.hsv c).2.2).2.2 * 255)
        = c.b
      rw [hco3]
      exact hbackb

/-- C2: for every pair of `Color`s (channels in the data model's 0–255
range) and every supported space (`rgb`, `hls`, `hsv`),
`Color.towards(other, 0.0)` reproduces `self`'s `r`, `g`, `b` channel
values and `Color.towards(other, 1.0)` reproduces `other`'s — exactly,
in the exact-rational idealisation of Python floats (so in particular
within any floating-point tolerance). -/
theorem towards_endpoints (c1 c2 : Color) (sp : Space)
    (h1 : channelsIn c1) (h2 : channelsIn c2) :
    ((c1.towards c2 0 sp).r = c1.r ∧ (c1.towards c2 0 sp).g = c1.g
      ∧ (c1.towards c2 0 sp).b = c1.b)
    ∧ ((c1.towards c2 1 sp).r = c2.r ∧ (c1.towards c2 1 sp).g = c2.g
      ∧ (c1.towards c2 1 sp).b = c2.b) := by
  have e0 : ∀ x y : ℚ, x + (y - x) * 0 = x := by intro x y; ring
  have e1 : ∀ x y : ℚ, x + (y - x) * 1 = y := by intro x y; ring
  constructor
  · have hT : Color.towards c1 c2 0 sp
        = spaceEncode sp (spaceDecode sp c1).1 (spaceDecode sp c1).2.1
            (spaceDecode sp c1).2.2 := by
      rw [Color.towards, e0, e0, e0]
    rw [hT]
    exact encode_decode sp c1 h1
  · have hT : Color.towards c1 c2 1 sp
        = spaceEncode sp (spaceDecode sp c2).1 (spaceDecode sp c2).2.1
            (spaceDecode sp c2).2.2 := by
      rw [Color.towards, e1, e1, e1]
    rw [hT]
    exact encode_decode sp c2 h2

/-- Witness for `towards_endpoints` on two concrete colors in HLS space. -/
theorem towards_endpoints_witness :
    (channelsIn ⟨30, 200, 100, 1⟩ ∧ channelsIn ⟨250, 3, 77, 1⟩)
    ∧ ((((⟨30, 200, 100, 1⟩ : Color).towards ⟨250, 3, 77, 1⟩ 0 Space.hls).r
          = (⟨30, 200, 100, 1⟩ : Color).r
        ∧ (((⟨30, 200, 100, 1⟩ : Color).towards ⟨250, 3, 77, 1⟩ 0 Space.hls).g
          = (⟨30, 200, 100, 1⟩ : Color).g)
        ∧ (((⟨30, 200, 100, 1⟩ : Color).towards ⟨250, 3, 77, 1⟩ 0 Space.hls).b
          = (⟨30, 200, 100, 1⟩ : Color).b))
      ∧ ((((⟨30, 200, 100, 1⟩ : Color).towards ⟨250, 3, 77, 1⟩ 1 Space.hls).r
          = (⟨250, 3, 77, 1⟩ : Color).r)
        ∧ (((⟨30, 200, 100, 1⟩ : Color).towards ⟨250, 3, 77, 1⟩ 1 Space.hls).g
          = (⟨250, 3, 77, 1⟩ : Color).g)
        ∧ (((⟨30, 200, 100, 1⟩ : Color).towards ⟨250, 3, 77, 1⟩ 1 Space.hls).b
          = (⟨250, 3, 77, 1⟩ : Color).b))) :=
  ⟨⟨by decide, by decide⟩,
    towards_endpoints ⟨30, 200, 100, 1⟩ ⟨250, 3, 77, 1⟩ Space.hls
      (by decide) (by decide)⟩

end Violetear
